import Mathlib

/-!
Shallow embedding of the bitswap core of this repository: the per-peer
message-multiplexing state machine (`src/iroh-bitswap/src/behaviour.rs`)
and the query manager (`src/iroh-bitswap/src/query.rs`).

Conventions of the embedding:
* `PeerId`, `Cid`, priorities and block payloads are opaque values, modelled
  as `Nat`.
* `AHashSet<PeerId>` is modelled as `Finset Nat`; `AHashMap` / `HashMap`
  registries are modelled as association lists `List (Nat × _)`, with list
  order standing for the (implementation-defined) iteration order of the
  hash map, and insertion appending at the end.
* The `usize` query-id counter wraps at `2 ^ 64`, written explicitly.
* Functions that in the source mutate `&mut self` take and return the state.
-/

namespace IrohBitswap

/-- Wrap-around bound of the `usize` query-id counter. -/
def U64 : Nat := 2 ^ 64

/-- A block: content identifier plus opaque payload (`Block` in the source). -/
structure Block where
  cid : Nat
  data : Nat
deriving DecidableEq, Repr

/-- Kind of a block-presence announcement (`Have` / `DontHave`). -/
inductive PresenceKind where
  | Have
  | DontHave
deriving DecidableEq, Repr

/-- A block-presence announcement (`BlockPresence` in the source). -/
structure BlockPresence where
  cid : Nat
  kind : PresenceKind
deriving DecidableEq, Repr

/-- Mirrors `BlockPresence::is_have`. -/
def BlockPresence.isHave (bp : BlockPresence) : Bool :=
  bp.kind = PresenceKind.Have

/-- Mirrors `BlockPresence::have(cid)`: a Have announcement for `cid`. -/
def BlockPresence.haveFor (cid : Nat) : BlockPresence :=
  ⟨cid, PresenceKind.Have⟩

/-- Kind of a wantlist entry. Modelled from the spec: the wire-format message
module (`message.rs`) is not part of the given sources; the spec's data model
(§3) gives a wantlist entry one of the kinds want-block, want-have, cancel. -/
inductive EntryKind where
  | wantBlock
  | wantHave
  | cancelKind
deriving DecidableEq, Repr

/-- Modelled from the spec: a wantlist is a set of entries keyed by CID, each
CID appearing at most once with the most recently set kind and priority (§3).
The list is kept keyed by the first component. -/
structure Wantlist where
  entries : List (Nat × EntryKind × Nat)
deriving DecidableEq, Repr

/-- Set the entry for `cid`, overwriting any existing entry for the same CID
(in place) or appending a fresh one. -/
def setEntryGo (cid : Nat) (k : EntryKind) (prio : Nat) :
    List (Nat × EntryKind × Nat) → List (Nat × EntryKind × Nat)
  | [] => [(cid, k, prio)]
  | (c, e) :: rest =>
    if c = cid then (cid, k, prio) :: rest else (c, e) :: setEntryGo cid k prio rest

/-- Modelled from the spec: `want_block(cid, priority)` records a want-block
entry, overwriting any prior entry for the same CID (§4.1). -/
def Wantlist.wantBlock (cid prio : Nat) (wl : Wantlist) : Wantlist :=
  ⟨setEntryGo cid EntryKind.wantBlock prio wl.entries⟩

/-- Modelled from the spec: `want_have_block(cid, priority)` records a
want-have entry for the CID. -/
def Wantlist.wantHaveBlock (cid prio : Nat) (wl : Wantlist) : Wantlist :=
  ⟨setEntryGo cid EntryKind.wantHave prio wl.entries⟩

/-- Modelled from the spec: `cancel_block(cid)` records a cancel entry for the
CID, superseding any pending want for the same CID (§4.1). -/
def Wantlist.cancelBlock (cid : Nat) (wl : Wantlist) : Wantlist :=
  ⟨setEntryGo cid EntryKind.cancelKind 0 wl.entries⟩

/-- Modelled from the spec: `remove_block(cid)` drops any pending
want-block/want-have entry for the CID (a recorded cancel entry stays). -/
def Wantlist.removeBlock (cid : Nat) (wl : Wantlist) : Wantlist :=
  ⟨wl.entries.filter fun e => !(e.1 = cid && !(e.2.1 = EntryKind.cancelKind))⟩

/-- Modelled from the spec: `remove_want_block(cid)` drops pending
want-block/want-have entries for the CID without emitting a cancel (§4.1). -/
def Wantlist.removeWantBlock (cid : Nat) (wl : Wantlist) : Wantlist :=
  ⟨wl.entries.filter fun e => !(e.1 = cid && !(e.2.1 = EntryKind.cancelKind))⟩

/-- Want-block entries of the wantlist, as (cid, priority) pairs; mirrors
`wantlist().blocks()`. -/
def Wantlist.blocks (wl : Wantlist) : List (Nat × Nat) :=
  wl.entries.filterMap fun e =>
    if e.2.1 = EntryKind.wantBlock then some (e.1, e.2.2) else none

/-- Want-have entries of the wantlist; mirrors `wantlist().want_have_blocks()`. -/
def Wantlist.wantHaveBlocks (wl : Wantlist) : List (Nat × Nat) :=
  wl.entries.filterMap fun e =>
    if e.2.1 = EntryKind.wantHave then some (e.1, e.2.2) else none

/-- Cancel entries of the wantlist; mirrors `wantlist().cancels()`. -/
def Wantlist.cancels (wl : Wantlist) : List Nat :=
  wl.entries.filterMap fun e =>
    if e.2.1 = EntryKind.cancelKind then some e.1 else none

/-- Modelled from the spec: a bitswap message bundles a wantlist, an ordered
sequence of block payloads, and a set of block-presence announcements (§3);
`message.rs` itself is not among the given sources. -/
structure BitswapMessage where
  wantlist : Wantlist
  blocks : List Block
  blockPresences : List BlockPresence
deriving DecidableEq, Repr

/-- The empty bitswap message (`BitswapMessage::default()`). -/
def BitswapMessage.empty : BitswapMessage :=
  ⟨⟨[]⟩, [], []⟩

instance : Inhabited BitswapMessage := ⟨BitswapMessage.empty⟩

/-- Modelled from the spec: a message is empty iff all three parts are
empty (§3). -/
def BitswapMessage.isEmpty (m : BitswapMessage) : Bool :=
  m.wantlist.entries.isEmpty && m.blocks.isEmpty && m.blockPresences.isEmpty

/-- Mirrors `add_block`: append a block payload. -/
def BitswapMessage.addBlock (b : Block) (m : BitswapMessage) : BitswapMessage :=
  { m with blocks := m.blocks ++ [b] }

/-- Mirrors `add_block_presence`: append a presence announcement. -/
def BitswapMessage.addBlockPresence (bp : BlockPresence) (m : BitswapMessage) :
    BitswapMessage :=
  { m with blockPresences := m.blockPresences ++ [bp] }

/-- Lift `Wantlist.wantBlock` to the message. -/
def BitswapMessage.wantBlock (cid prio : Nat) (m : BitswapMessage) : BitswapMessage :=
  { m with wantlist := m.wantlist.wantBlock cid prio }

/-- Lift `Wantlist.wantHaveBlock` to the message. -/
def BitswapMessage.wantHaveBlock (cid prio : Nat) (m : BitswapMessage) : BitswapMessage :=
  { m with wantlist := m.wantlist.wantHaveBlock cid prio }

/-- Lift `Wantlist.cancelBlock` to the message. -/
def BitswapMessage.cancelBlock (cid : Nat) (m : BitswapMessage) : BitswapMessage :=
  { m with wantlist := m.wantlist.cancelBlock cid }

/-- Lift `Wantlist.removeBlock` to the message. -/
def BitswapMessage.removeBlock (cid : Nat) (m : BitswapMessage) : BitswapMessage :=
  { m with wantlist := m.wantlist.removeBlock cid }

/-- Lift `Wantlist.removeWantBlock` to the message. -/
def BitswapMessage.removeWantBlock (cid : Nat) (m : BitswapMessage) : BitswapMessage :=
  { m with wantlist := m.wantlist.removeWantBlock cid }

/-! ## Query manager (`src/iroh-bitswap/src/query.rs`) -/

/-- Query state: `State::New` or `State::Sent(contacted peers)`. -/
inductive QState where
  | New
  | Sent (peers : Finset Nat)
deriving DecidableEq

/-- The query variants of `enum Query` in `query.rs`, with the fields in
source order. -/
inductive Query where
  | Want (providers : Finset Nat) (cid : Nat) (priority : Nat) (state : QState)
  | FindProviders (cid : Nat) (peers : Finset Nat) (providers : Finset Nat)
      (state : QState) (priority : Nat)
  | Cancel (providers : Finset Nat) (cid : Nat) (state : QState)
  | Send (receiver : Nat) (block : Block) (state : QState)
  | SendHave (receiver : Nat) (cid : Nat) (state : QState)
deriving DecidableEq

/-- The kind tag of a query; used to label the `Err(Timeout)` completion event
`poll_all` emits (`QueryResult::Want(WantResult::Err(Timeout))` and so on). -/
inductive QueryResultKind where
  | Want
  | FindProviders
  | Send
  | SendHave
  | Cancel
deriving DecidableEq, Repr

/-- Kind tag of a query. -/
def Query.kind : Query → QueryResultKind
  | .Want _ _ _ _ => .Want
  | .FindProviders _ _ _ _ _ => .FindProviders
  | .Cancel _ _ _ => .Cancel
  | .Send _ _ _ => .Send
  | .SendHave _ _ _ => .SendHave

/-- Mirrors `Query::contains_unused_provider`. -/
def Query.containsUnusedProvider (peerId : Nat) : Query → Bool
  | .Want providers _ _ _ => decide (peerId ∈ providers)
  | .Cancel providers _ _ => decide (peerId ∈ providers)
  | .FindProviders _ peers _ _ _ => decide (peerId ∈ peers)
  | .Send receiver _ _ => receiver = peerId
  | .SendHave receiver _ _ => receiver = peerId

/-- Membership of a peer in a `Sent` set. -/
def QState.sentContains (peerId : Nat) : QState → Bool
  | .New => false
  | .Sent s => decide (peerId ∈ s)

/-- Mirrors `Query::contains_provider`: the peer is an unused candidate or is
in the `Sent` set. -/
def Query.containsProvider (peerId : Nat) : Query → Bool
  | .Want providers _ _ state => decide (peerId ∈ providers) || state.sentContains peerId
  | .Cancel providers _ state => decide (peerId ∈ providers) || state.sentContains peerId
  | .FindProviders _ peers _ state _ => decide (peerId ∈ peers) || state.sentContains peerId
  | .Send receiver _ state => (receiver = peerId : Bool) || state.sentContains peerId
  | .SendHave receiver _ state => (receiver = peerId : Bool) || state.sentContains peerId

/-- Remove a peer from the `Sent` set (`used_providers.remove(peer_id)`). -/
def QState.eraseSent (peerId : Nat) : QState → QState
  | .New => .New
  | .Sent s => .Sent (s.erase peerId)

/-- Record a peer into the state after contacting it: `New` becomes
`Sent({peer})`, `Sent(s)` becomes `Sent(s ∪ {peer})` (the state-update match
repeated in every arm of `poll_peer`). -/
def QState.addSent (peerId : Nat) : QState → QState
  | .New => .Sent {peerId}
  | .Sent s => .Sent (insert peerId s)

/-- The per-variant body of `QueryManager::disconnected`: remove the peer from
the query's `Sent` set. -/
def Query.disconnectQ (peerId : Nat) : Query → Query
  | .Want providers cid priority state => .Want providers cid priority (state.eraseSent peerId)
  | .FindProviders cid peers providers state priority =>
      .FindProviders cid peers providers (state.eraseSent peerId) priority
  | .Cancel providers cid state => .Cancel providers cid (state.eraseSent peerId)
  | .Send receiver block state => .Send receiver block (state.eraseSent peerId)
  | .SendHave receiver cid state => .SendHave receiver cid (state.eraseSent peerId)

/-- True exactly on `Sent(∅)`. -/
def QState.sentIsEmpty : QState → Bool
  | .New => false
  | .Sent s => decide (s = ∅)

/-- Mirrors the per-variant checks of `next_finished_query`: a query is
finished when its unused candidate set (where it has one) is empty and its
state is `Sent(∅)`. -/
def Query.isFinished : Query → Bool
  | .Want providers _ _ state => decide (providers = ∅) && state.sentIsEmpty
  | .FindProviders _ peers _ state _ => decide (peers = ∅) && state.sentIsEmpty
  | .Send _ _ state => state.sentIsEmpty
  | .SendHave _ _ state => state.sentIsEmpty
  | .Cancel providers _ state => decide (providers = ∅) && state.sentIsEmpty

/-- The query registry: `queries: AHashMap<QueryId, Query>` as an association
list in iteration order, plus the `next_id` counter. -/
structure QueryManager where
  queries : List (Nat × Query)
  nextId : Nat
deriving DecidableEq

/-- The fresh query manager (`QueryManager::default()`). -/
def QueryManager.init : QueryManager := ⟨[], 0⟩

/-- Keys of the registry. -/
def qmKeys (qm : QueryManager) : List Nat := qm.queries.map Prod.fst

/-- Mirrors `QueryManager::new_query`: allocate the next id (with `usize`
wrap-around) and insert the query. -/
def QueryManager.newQuery (q : Query) (qm : QueryManager) : Nat × QueryManager :=
  (qm.nextId, ⟨qm.queries ++ [(qm.nextId, q)], (qm.nextId + 1) % U64⟩)

/-- Mirrors `QueryManager::is_empty`. -/
def QueryManager.isEmptyQ (qm : QueryManager) : Bool := qm.queries.isEmpty

/-- Mirrors `QueryManager::want`. -/
def QueryManager.want (cid priority : Nat) (providers : Finset Nat)
    (qm : QueryManager) : Nat × QueryManager :=
  qm.newQuery (.Want providers cid priority .New)

/-- Mirrors `QueryManager::send`. -/
def QueryManager.send (receiver cid data : Nat) (qm : QueryManager) :
    Nat × QueryManager :=
  qm.newQuery (.Send receiver ⟨cid, data⟩ .New)

/-- Mirrors `QueryManager::send_have`. -/
def QueryManager.sendHave (receiver cid : Nat) (qm : QueryManager) :
    Nat × QueryManager :=
  qm.newQuery (.SendHave receiver cid .New)

/-- Mirrors `QueryManager::find_providers`. -/
def QueryManager.findProviders (cid priority : Nat) (peers : Finset Nat)
    (qm : QueryManager) : Nat × QueryManager :=
  qm.newQuery (.FindProviders cid peers ∅ .New priority)

/-- Generic registry sweep standing for the `retain` / mutate-and-collect
loops of `query.rs`: each entry is either kept (possibly updated, same id) or
removed while collecting a value. -/
def sift (f : Nat → Query → Query ⊕ γ) : List (Nat × Query) →
    List (Nat × Query) × List (Nat × γ)
  | [] => ([], [])
  | (id, q) :: rest =>
    let res := sift f rest
    match f id q with
    | Sum.inl q' => ((id, q') :: res.1, res.2)
    | Sum.inr g => (res.1, (id, g) :: res.2)

/-- The per-entry decision of `QueryManager::cancel`'s `retain`: a `Want` for
the cancelled CID is removed, recording the `Sent` providers when there are
any (the payload is `none` for a `Want` still in `State::New`). -/
def cancelCollectF (cid : Nat) (_id : Nat) : Query → Query ⊕ Option (Finset Nat)
  | .Want providers c priority state =>
    if c = cid then
      match state with
      | .New => Sum.inr none
      | .Sent s => Sum.inr (some s)
    else Sum.inl (.Want providers c priority state)
  | q => Sum.inl q

/-- Mirrors `QueryManager::cancel(cid)`: remove every `Want` whose CID equals
`cid`; if a removed one was in state `Sent(s)` (the mutable `cancel` slot in
the source keeps the last such `s`), create a `Cancel { providers := s }` and
return its id. -/
def QueryManager.cancel (cid : Nat) (qm : QueryManager) :
    Option Nat × QueryManager :=
  let res := sift (cancelCollectF cid) qm.queries
  let qm1 : QueryManager := ⟨res.1, qm.nextId⟩
  match (res.2.filterMap Prod.snd).getLast? with
  | none => (none, qm1)
  | some providers =>
    let r := qm1.newQuery (.Cancel providers cid .New)
    (some r.1, r.2)

/-- The per-entry decision of `process_block`'s `retain`: a `Want` whose CID
matches the received block is removed, collecting its still-unused providers
and, when it was in `Sent(s)`, the set `s` (from which the sender is removed
by the caller). -/
def processBlockF (bcid : Nat) (_id : Nat) :
    Query → Query ⊕ (Finset Nat × Option (Finset Nat))
  | .Want providers c priority state =>
    if c = bcid then
      match state with
      | .New => Sum.inr (providers, none)
      | .Sent s => Sum.inr (providers, some s)
    else Sum.inl (.Want providers c priority state)
  | q => Sum.inl q

/-- Cancel sets generated by `process_block`: for each removed `Want` in state
`Sent(s)`, the set `s \ {sender}`, kept only when non-empty
(`if !providers.is_empty()` in the source). -/
def processBlockCancels (sender : Nat)
    (removed : List (Nat × Finset Nat × Option (Finset Nat))) : List (Finset Nat) :=
  removed.filterMap fun e =>
    match e.2.2 with
    | none => none
    | some s =>
      let s' := s.erase sender
      if s' = ∅ then none else some s'

/-- Result of `QueryManager::process_block`: the collected unused providers
(the source pushes them into a `Vec` in hash-iteration order; the set of them
is modelled), the removed query ids in iteration order, and the updated
manager with the follow-up `Cancel` queries appended. -/
def QueryManager.processBlock (sender : Nat) (b : Block) (qm : QueryManager) :
    (Finset Nat × List Nat) × QueryManager :=
  let res := sift (processBlockF b.cid) qm.queries
  let qm1 : QueryManager := ⟨res.1, qm.nextId⟩
  let qm2 := (processBlockCancels sender res.2).foldl
    (fun acc s => (acc.newQuery (.Cancel s b.cid .New)).2) qm1
  ((res.2.foldl (fun acc e => acc ∪ e.2.1) ∅, res.2.map Prod.fst), qm2)

/-- The per-entry decision of `process_block_presence`'s `retain`: a
`FindProviders` matching a Have announcement accumulates the peer into its
providers; it is removed (collecting id and providers) exactly when the
candidate `peers` set is empty or the providers reach 40. -/
def presenceF (peer : Nat) (bp : BlockPresence) (_id : Nat) :
    Query → Query ⊕ Finset Nat
  | .FindProviders c peers providers state priority =>
    if bp.isHave && decide (c = bp.cid) then
      let providers' := insert peer providers
      if decide (peers = ∅) || decide (providers'.card ≥ 40) then
        Sum.inr providers'
      else
        Sum.inl (.FindProviders c peers providers' state priority)
    else Sum.inl (.FindProviders c peers providers state priority)
  | q => Sum.inl q

/-- Mirrors `QueryManager::process_block_presence`: returns the completed
`(query_id, providers)` pairs and the updated manager. -/
def QueryManager.processBlockPresence (peer : Nat) (bp : BlockPresence)
    (qm : QueryManager) : List (Nat × Finset Nat) × QueryManager :=
  let res := sift (presenceF peer bp) qm.queries
  (res.2, ⟨res.1, qm.nextId⟩)

/-- The per-entry transformation of `QueryManager::disconnected`. -/
def disconnectEntry (peerId : Nat) (e : Nat × Query) : Nat × Query :=
  if e.2.containsProvider peerId then (e.1, e.2.disconnectQ peerId) else e

/-- Mirrors `QueryManager::disconnected`: for every query containing the peer,
remove it from the `Sent` set. -/
def QueryManager.disconnected (peerId : Nat) (qm : QueryManager) : QueryManager :=
  ⟨qm.queries.map (disconnectEntry peerId), qm.nextId⟩

/-- Mirrors `QueryManager::dial_failure`, which just calls `disconnected`. -/
def QueryManager.dialFailure (peerId : Nat) (qm : QueryManager) : QueryManager :=
  qm.disconnected peerId

/-- Mirrors `next_finished_query`: find the first finished query in iteration
order, remove it from the registry and return it with the remainder. -/
def extractFirstFinished : List (Nat × Query) →
    Option ((Nat × Query) × List (Nat × Query))
  | [] => none
  | (id, q) :: rest =>
    if q.isFinished then some ((id, q), rest)
    else
      match extractFirstFinished rest with
      | none => none
      | some (e, rest') => some (e, (id, q) :: rest')

/-- Mirrors `QueryManager::poll_all`: when some query is finished, remove it
and emit its completion. The returned pair `(id, k)` stands for the emitted
`OutboundQueryCompleted` event whose result is the `Err(Timeout)` of kind `k`
(the source builds the event from the removed query and drops the id). -/
def QueryManager.pollAll (qm : QueryManager) :
    Option (Nat × QueryResultKind) × QueryManager :=
  match extractFirstFinished qm.queries with
  | none => (none, qm)
  | some ((id, q), rest) => (some (id, q.kind), ⟨rest, qm.nextId⟩)

/-- The per-entry registry decision of `poll_peer` for queries that contain
the polled peer as an unused candidate: `Want` / `FindProviders` / `Cancel`
remove the peer from their candidate set and record it into the `Sent` state;
a `Send` / `SendHave` in `State::New` transitions to `Sent({receiver})`, while
one already in `Sent(_)` is dropped from the registry with no event. -/
def pollPeerF (peer : Nat) (_id : Nat) : Query → Query ⊕ Unit
  | .Want providers cid priority state =>
    if decide (peer ∈ providers) then
      Sum.inl (.Want (providers.erase peer) cid priority (state.addSent peer))
    else Sum.inl (.Want providers cid priority state)
  | .FindProviders cid peers providers state priority =>
    if decide (peer ∈ peers) then
      Sum.inl (.FindProviders cid (peers.erase peer) providers (state.addSent peer) priority)
    else Sum.inl (.FindProviders cid peers providers state priority)
  | .Cancel providers cid state =>
    if decide (peer ∈ providers) then
      Sum.inl (.Cancel (providers.erase peer) cid (state.addSent peer))
    else Sum.inl (.Cancel providers cid state)
  | .Send receiver block state =>
    if receiver = peer then
      match state with
      | .New => Sum.inl (.Send receiver block (.Sent {receiver}))
      | .Sent _ => Sum.inr ()
    else Sum.inl (.Send receiver block state)
  | .SendHave receiver cid state =>
    if receiver = peer then
      match state with
      | .New => Sum.inl (.SendHave receiver cid (.Sent {receiver}))
      | .Sent _ => Sum.inr ()
    else Sum.inl (.SendHave receiver cid state)

/-- The message-building aspect of `poll_peer`'s loop: the wantlist/payload
additions each matching query makes, applied in iteration order. -/
def pollPeerAdd (peer : Nat) (q : Query) (msg : BitswapMessage) : BitswapMessage :=
  if q.containsUnusedProvider peer then
    match q with
    | .Want _ cid priority _ => msg.wantBlock cid priority
    | .FindProviders cid _ _ _ priority => msg.wantHaveBlock cid priority
    | .Cancel _ cid _ => msg.cancelBlock cid
    | .Send _ block state =>
      match state with
      | .New => msg.addBlock block
      | .Sent _ => msg
    | .SendHave _ cid state =>
      match state with
      | .New => msg.addBlockPresence (BlockPresence.haveFor cid)
      | .Sent _ => msg
  else msg

/-- Message aggregated by `poll_peer` over the registry in iteration order. -/
def pollPeerMsg (peer : Nat) (l : List (Nat × Query)) : BitswapMessage :=
  l.foldl (fun msg e => pollPeerAdd peer e.2 msg) BitswapMessage.empty

/-- The final value of `num_queries` in `poll_peer`: matching queries counted,
with the already-sent `Send` / `SendHave` ones (incremented then decremented
in the source) contributing zero. -/
def pollPeerCount (peer : Nat) (l : List (Nat × Query)) : Nat :=
  l.countP fun e =>
    e.2.containsUnusedProvider peer &&
      !(match e.2 with
        | .Send _ _ (.Sent _) => true
        | .SendHave _ _ (.Sent _) => true
        | _ => false)

/-- Mirrors `QueryManager::poll_peer`: aggregate a message over all queries
containing the peer as unused candidate, drop the finished `Send` / `SendHave`
queries, and return `NotifyHandler(peer, msg)` (modelled as `some msg`) when at
least one query matched and the message is non-empty. -/
def QueryManager.pollPeer (peerId : Nat) (qm : QueryManager) :
    Option BitswapMessage × QueryManager :=
  if qm.queries.isEmpty then (none, qm)
  else
    let res := sift (pollPeerF peerId) qm.queries
    let msg := pollPeerMsg peerId qm.queries
    let qm' : QueryManager := ⟨res.1, qm.nextId⟩
    if 0 < pollPeerCount peerId qm.queries ∧ msg.isEmpty = false then
      (some msg, qm')
    else
      (none, qm')

/-! ## Peer table (`src/iroh-bitswap/src/behaviour.rs`) -/

/-- Connection state of a known peer (`enum ConnState`). -/
inductive ConnState where
  | Unknown
  | Connected
  | Disconnected
  | Dialing
deriving DecidableEq, Repr

/-- Per-peer state (`struct PeerState`): connection state and the pending
outbound message. -/
structure PeerState where
  conn : ConnState
  msg : BitswapMessage
deriving DecidableEq, Repr

/-- Mirrors `PeerState::default()`: `conn = Unknown`, empty message. -/
def PeerState.init : PeerState := ⟨ConnState.Unknown, BitswapMessage.empty⟩

instance : Inhabited PeerState := ⟨PeerState.init⟩

/-- Mirrors `PeerState::is_connected`. -/
def PeerState.isConnected (ps : PeerState) : Bool := ps.conn = ConnState.Connected

/-- Mirrors `PeerState::is_empty`. -/
def PeerState.isEmptyP (ps : PeerState) : Bool := ps.msg.isEmpty

/-- Mirrors `PeerState::needs_connection`: non-empty pending message and
`conn ∈ {Disconnected, Unknown}`. -/
def PeerState.needsConnection (ps : PeerState) : Bool :=
  !ps.isEmptyP && (ps.conn = ConnState.Disconnected || ps.conn = ConnState.Unknown)

/-- Mirrors `PeerState::send_message`: take the pending message, leaving the
empty one in its place (`std::mem::take`). -/
def PeerState.sendMessage (ps : PeerState) : BitswapMessage × PeerState :=
  (ps.msg, { ps with msg := BitswapMessage.empty })

/-- Dial-failure error kinds distinguished by `inject_dial_failure`
(`DialError::ConnectionLimit(_)` versus every other variant). -/
inductive DialErrorKind where
  | ConnectionLimit
  | Other
deriving DecidableEq, Repr

/-- Upward events of the behaviour (`BitswapEvent`): the completions and
inbound requests that `inject_event` queues. -/
inductive BitswapEvent where
  | wantOk (sender cid data : Nat)
  | findProvidersOk (cid provider : Nat)
  | inboundWant (sender cid priority : Nat)
  | inboundWantHave (sender cid priority : Nat)
  | inboundCancel (sender cid : Nat)
deriving DecidableEq, Repr

/-- Downward actions of the behaviour (`NetworkBehaviourAction`): queued
upward events, dial requests and handler notifications. -/
inductive BAction where
  | generateEvent (e : BitswapEvent)
  | dial (peer : Nat)
  | notifyHandler (peer : Nat) (msg : BitswapMessage)
deriving DecidableEq, Repr

/-- The behaviour state (`struct Bitswap`): the queued actions and the table
of known peers, as an association list in iteration order. -/
structure Bitswap where
  events : List BAction
  knownPeers : List (Nat × PeerState)
deriving DecidableEq

/-- The fresh behaviour (`Bitswap::default()`). -/
def Bitswap.init : Bitswap := ⟨[], []⟩

/-- Association-list lookup: the value at the first occurrence of the key
(`HashMap` lookup). -/
def lookupPeer (p : Nat) : List (Nat × PeerState) → Option PeerState
  | [] => none
  | (q, v) :: rest => if q = p then some v else lookupPeer p rest

/-- Mirrors `HashMap::insert`: overwrite the first entry with the key, or
append a fresh entry. -/
def insertPeer (p : Nat) (v : PeerState) : List (Nat × PeerState) →
    List (Nat × PeerState)
  | [] => [(p, v)]
  | (q, w) :: rest =>
    if q = p then (p, v) :: rest else (q, w) :: insertPeer p v rest

/-- Mirrors the `entry(p).or_default()`-then-mutate pattern: apply `f` to the
existing state at the key, or to the default state appended fresh. -/
def modifyPeer (p : Nat) (f : PeerState → PeerState) :
    List (Nat × PeerState) → List (Nat × PeerState)
  | [] => [(p, f PeerState.init)]
  | (q, w) :: rest =>
    if q = p then (q, f w) :: rest else (q, w) :: modifyPeer p f rest

/-- Mirrors `HashMap::remove`. -/
def removePeer (p : Nat) (l : List (Nat × PeerState)) : List (Nat × PeerState) :=
  l.filter fun e => !(e.1 = p)

/-- Mirrors `Bitswap::add_peer`: `known_peers.insert(peer, PeerState::default())`. -/
def Bitswap.addPeer (p : Nat) (st : Bitswap) : Bitswap :=
  { st with knownPeers := insertPeer p PeerState.init st.knownPeers }

/-- Mirrors `Bitswap::want_block`: for each provider (in iteration order of
the given set), ensure a peer state and record a want-block entry. -/
def Bitswap.wantBlock (cid priority : Nat) (providers : List Nat) (st : Bitswap) :
    Bitswap :=
  { st with
    knownPeers := providers.foldl
      (fun kps p => modifyPeer p (fun ps => { ps with msg := ps.msg.wantBlock cid priority }) kps)
      st.knownPeers }

/-- Mirrors `Bitswap::send_block`. -/
def Bitswap.sendBlock (peerId cid data : Nat) (st : Bitswap) : Bitswap :=
  { st with
    knownPeers := modifyPeer peerId
      (fun ps => { ps with msg := ps.msg.addBlock ⟨cid, data⟩ }) st.knownPeers }

/-- Mirrors `Bitswap::send_have_block`. -/
def Bitswap.sendHaveBlock (peerId cid : Nat) (st : Bitswap) : Bitswap :=
  { st with
    knownPeers := modifyPeer peerId
      (fun ps => { ps with msg := ps.msg.addBlockPresence (BlockPresence.haveFor cid) })
      st.knownPeers }

/-- The constant `MAX_PROVIDERS` of `behaviour.rs`. -/
def MAX_PROVIDERS : Nat := 10

/-- Mirrors `Bitswap::connected_peers`: ids of the peers whose connection
state is `Connected` or `Unknown` (in table iteration order). -/
def Bitswap.connectedPeers (st : Bitswap) : List Nat :=
  st.knownPeers.filterMap fun e =>
    match e.2.conn with
    | ConnState.Connected => some e.1
    | ConnState.Unknown => some e.1
    | ConnState.Disconnected => none
    | ConnState.Dialing => none

/-- The peers `find_providers` probes: the first `MAX_PROVIDERS` of
`connected_peers()` (`take(MAX_PROVIDERS).collect()`). -/
def Bitswap.findProvidersPeers (st : Bitswap) : List Nat :=
  st.connectedPeers.take MAX_PROVIDERS

/-- Mirrors `Bitswap::find_providers`: record a want-have entry on each of the
selected peers. -/
def Bitswap.findProvidersB (cid priority : Nat) (st : Bitswap) : Bitswap :=
  { st with
    knownPeers := st.findProvidersPeers.foldl
      (fun kps p => modifyPeer p (fun ps => { ps with msg := ps.msg.wantHaveBlock cid priority }) kps)
      st.knownPeers }

/-- Mirrors `Bitswap::cancel_block`: record a cancel entry on every known peer. -/
def Bitswap.cancelBlockB (cid : Nat) (st : Bitswap) : Bitswap :=
  { st with
    knownPeers := st.knownPeers.map fun e =>
      (e.1, { e.2 with msg := e.2.msg.cancelBlock cid }) }

/-- Mirrors `Bitswap::cancel_want_block`: drop pending want entries for the
CID on every known peer. -/
def Bitswap.cancelWantBlock (cid : Nat) (st : Bitswap) : Bitswap :=
  { st with
    knownPeers := st.knownPeers.map fun e =>
      (e.1, { e.2 with msg := e.2.msg.removeWantBlock cid }) }

/-- Mirrors `inject_connection_established`: set the peer's state (inserted
fresh if unknown) to `Connected`. -/
def Bitswap.injectConnectionEstablished (peerId : Nat) (st : Bitswap) : Bitswap :=
  { st with
    knownPeers := modifyPeer peerId
      (fun ps => { ps with conn := ConnState.Connected }) st.knownPeers }

/-- Mirrors `inject_connection_closed`: when no established connection
remains, set a known peer's state to `Disconnected` (pending message kept). -/
def Bitswap.injectConnectionClosed (peerId : Nat) (remainingEstablished : Nat)
    (st : Bitswap) : Bitswap :=
  if remainingEstablished = 0 then
    { st with
      knownPeers :=
        match lookupPeer peerId st.knownPeers with
        | none => st.knownPeers
        | some _ =>
          modifyPeer peerId (fun ps => { ps with conn := ConnState.Disconnected })
            st.knownPeers }
  else st

/-- Mirrors `inject_dial_failure`: on `ConnectionLimit` the peer (inserted
fresh if unknown) becomes `Disconnected`; on any other error the peer is
removed from the table. -/
def Bitswap.injectDialFailure (peerId : Option Nat) (err : DialErrorKind)
    (st : Bitswap) : Bitswap :=
  match peerId with
  | none => st
  | some p =>
    match err with
    | DialErrorKind.ConnectionLimit =>
      { st with
        knownPeers := modifyPeer p
          (fun ps => { ps with conn := ConnState.Disconnected }) st.knownPeers }
    | DialErrorKind.Other =>
      { st with knownPeers := removePeer p st.knownPeers }

/-- The per-block step of `inject_event`'s `pop_block` loop: on the sender
record an outgoing cancel for the block's CID, on every other peer drop the
pending want; then queue the `Want(Ok)` completion event. -/
def injectBlockStep (peerId : Nat) (st : Bitswap) (b : Block) : Bitswap :=
  { st with
    knownPeers := st.knownPeers.map fun e =>
      if e.1 = peerId then (e.1, { e.2 with msg := e.2.msg.cancelBlock b.cid })
      else (e.1, { e.2 with msg := e.2.msg.removeBlock b.cid }),
    events := st.events ++ [BAction.generateEvent (.wantOk peerId b.cid b.data)] }

/-- The per-presence step of `inject_event`'s `block_presences()` loop: drop
pending want entries for the CID on every peer and queue the
`FindProviders(Ok)` completion event. The source applies this to every
block presence of the message, without inspecting its kind. -/
def injectPresenceStep (peerId : Nat) (st : Bitswap) (bp : BlockPresence) : Bitswap :=
  { st with
    knownPeers := st.knownPeers.map fun e =>
      (e.1, { e.2 with msg := e.2.msg.removeWantBlock bp.cid }),
    events := st.events ++ [BAction.generateEvent (.findProvidersOk bp.cid peerId)] }

/-- Mirrors the `HandlerEvent::Bitswap` arm of `inject_event`: process blocks,
then block presences, then propagate the want, want-have and cancel entries of
the inbound wantlist as `InboundRequest` events. -/
def Bitswap.injectEvent (peerId : Nat) (m : BitswapMessage) (st : Bitswap) : Bitswap :=
  let st1 := m.blocks.foldl (injectBlockStep peerId) st
  let st2 := m.blockPresences.foldl (injectPresenceStep peerId) st1
  let st3 := { st2 with
    events := st2.events ++ m.wantlist.blocks.map
      (fun (e : Nat × Nat) => BAction.generateEvent (.inboundWant peerId e.1 e.2)) }
  let st4 := { st3 with
    events := st3.events ++ m.wantlist.wantHaveBlocks.map
      (fun (e : Nat × Nat) => BAction.generateEvent (.inboundWantHave peerId e.1 e.2)) }
  { st4 with
    events := st4.events ++ m.wantlist.cancels.map
      (fun c => BAction.generateEvent (.inboundCancel peerId c)) }

/-- The message-dispatch search of `poll`: find the first peer with
`conn = Connected` and a non-empty pending message, take its message and
return it with the updated table. -/
def findTakeMsg : List (Nat × PeerState) →
    Option (Nat × BitswapMessage × List (Nat × PeerState))
  | [] => none
  | (p, ps) :: rest =>
    if ps.isConnected && !ps.isEmptyP then
      some (p, ps.msg, (p, { ps with msg := BitswapMessage.empty }) :: rest)
    else
      match findTakeMsg rest with
      | none => none
      | some (q, m, rest') => some (q, m, (p, ps) :: rest')

/-- The dial-trigger search of `poll`: find the first peer that needs a
connection, set it to `Dialing` and return it with the updated table. -/
def findDial : List (Nat × PeerState) → Option (Nat × List (Nat × PeerState))
  | [] => none
  | (p, ps) :: rest =>
    if ps.needsConnection then
      some (p, (p, { ps with conn := ConnState.Dialing }) :: rest)
    else
      match findDial rest with
      | none => none
      | some (q, rest') => some (q, (p, ps) :: rest')

/-- Mirrors `Bitswap::poll`: drain one queued action; otherwise notify the
first connected peer with a pending message; otherwise dial the first peer
needing a connection; otherwise pending (`none`). -/
def Bitswap.poll (st : Bitswap) : Option BAction × Bitswap :=
  match st.events with
  | e :: rest => (some e, { st with events := rest })
  | [] =>
    match findTakeMsg st.knownPeers with
    | some (p, m, kps) => (some (BAction.notifyHandler p m), { st with knownPeers := kps })
    | none =>
      match findDial st.knownPeers with
      | some (p, kps) => (some (BAction.dial p), { st with knownPeers := kps })
      | none => (none, st)

/-! ## Derived descriptions and the operation trace of the query manager -/

/-- True on a `Want` query for the given CID. -/
def wantMatches (c : Nat) : Query → Bool
  | .Want _ cid _ _ => cid = c
  | _ => false

/-- Candidate providers of a `Want` query (empty for other variants). -/
def wantProvidersOf : Query → Finset Nat
  | .Want providers _ _ _ => providers
  | _ => ∅

/-- The cancel sets `process_block(sender, b)` creates, read off the registry:
for each `Want` for the CID in state `Sent(s)` with `s \\ {sender}` non-empty,
that difference, in registry order. -/
def cancelSetsFor (sender c : Nat) (l : List (Nat × Query)) : List (Finset Nat) :=
  l.filterMap fun e =>
    match e.2 with
    | .Want _ cid _ (.Sent s) =>
      if cid = c then (if s.erase sender = ∅ then none else some (s.erase sender)) else none
    | _ => none

/-- Fresh `Cancel` registry entries with sequential ids starting at `n`. -/
def cancelEntries (c : Nat) : Nat → List (Finset Nat) → List (Nat × Query)
  | _, [] => []
  | n, s :: rest => (n, Query.Cancel s c QState.New) :: cancelEntries c (n + 1) rest

/-- The `Sent` sets of the `Want` queries for a CID, in registry order; the
source's `cancel(cid)` keeps the last one. -/
def sentWantSets (c : Nat) (l : List (Nat × Query)) : List (Finset Nat) :=
  l.filterMap fun e =>
    match e.2 with
    | .Want _ cid _ (.Sent s) => if cid = c then some s else none
    | _ => none

/-- The operations of the query manager, for stating trace properties. -/
inductive QMOp where
  | want (cid priority : Nat) (providers : Finset Nat)
  | send (receiver cid data : Nat)
  | sendHave (receiver cid : Nat)
  | findProviders (cid priority : Nat) (peers : Finset Nat)
  | cancel (cid : Nat)
  | processBlock (sender : Nat) (b : Block)
  | processBlockPresence (peer : Nat) (bp : BlockPresence)
  | disconnected (peer : Nat)
  | dialFailure (peer : Nat)
  | pollAll
  | pollPeer (peer : Nat)

/-- One operation applied to the query manager, paired with the list of query
ids completed by it: the ids `process_block` returns (the caller emits one
`Want(Ok)` completion per id), the ids `process_block_presence` returns (one
`FindProviders(Ok)` completion each), and the id removed by `poll_all` (one
`Err(Timeout)` completion). Creations, `cancel`, peer churn and `poll_peer`
complete nothing. -/
def stepOp (qm : QueryManager) : QMOp → QueryManager × List Nat
  | .want cid priority providers => ((qm.want cid priority providers).2, [])
  | .send r c d => ((qm.send r c d).2, [])
  | .sendHave r c => ((qm.sendHave r c).2, [])
  | .findProviders c p peers => ((qm.findProviders c p peers).2, [])
  | .cancel c => ((qm.cancel c).2, [])
  | .processBlock s b => ((qm.processBlock s b).2, (qm.processBlock s b).1.2)
  | .processBlockPresence p bp =>
      ((qm.processBlockPresence p bp).2, (qm.processBlockPresence p bp).1.map Prod.fst)
  | .disconnected p => (qm.disconnected p, [])
  | .dialFailure p => (qm.dialFailure p, [])
  | .pollAll =>
      ((qm.pollAll).2,
        match (qm.pollAll).1 with
        | none => []
        | some e => [e.1])
  | .pollPeer p => ((qm.pollPeer p).2, [])

/-- A whole operation sequence, with the concatenated completion ids. -/
def runOps (qm : QueryManager) : List QMOp → QueryManager × List Nat
  | [] => (qm, [])
  | op :: ops =>
    let r := stepOp qm op
    let r' := runOps r.1 ops
    (r'.1, r.2 ++ r'.2)

/-- Number of `new_query` allocations an operation performs. -/
def stepAllocs (qm : QueryManager) : QMOp → Nat
  | .want _ _ _ => 1
  | .send _ _ _ => 1
  | .sendHave _ _ => 1
  | .findProviders _ _ _ => 1
  | .cancel c =>
      if (((sift (cancelCollectF c) qm.queries).2.filterMap Prod.snd).getLast?).isSome
      then 1 else 0
  | .processBlock s b =>
      (processBlockCancels s (sift (processBlockF b.cid) qm.queries).2).length
  | _ => 0

/-- Allocations of a whole operation sequence. -/
def runAllocs (qm : QueryManager) : List QMOp → Nat
  | [] => 0
  | op :: ops => stepAllocs qm op + runAllocs (stepOp qm op).1 ops

/-- Well-formedness of the registry: distinct ids, all below the allocation
counter. -/
def QMInv (qm : QueryManager) : Prop :=
  (qmKeys qm).Nodup ∧ ∀ id ∈ qmKeys qm, id < qm.nextId

/-! ## Helper lemmas on the association-list peer table -/

theorem lookupPeer_insertPeer_self (p : Nat) (v : PeerState)
    (l : List (Nat × PeerState)) : lookupPeer p (insertPeer p v l) = some v := by
  induction l with
  | nil => simp [insertPeer, lookupPeer]
  | cons e rest ih =>
    by_cases h : e.1 = p
    · simp [insertPeer, lookupPeer, h]
    · simp [insertPeer, lookupPeer, h, ih]

theorem lookupPeer_insertPeer_ne (p q : Nat) (v : PeerState)
    (l : List (Nat × PeerState)) (h : q ≠ p) :
    lookupPeer q (insertPeer p v l) = lookupPeer q l := by
  induction l with
  | nil => simp [insertPeer, lookupPeer, Ne.symm h]
  | cons e rest ih =>
    by_cases he : e.1 = p
    · simp [insertPeer, lookupPeer, he, Ne.symm h]
    · simp only [insertPeer, he, if_false, lookupPeer]
      by_cases hq : e.1 = q <;> simp [hq, ih]

theorem insertPeer_idem (p : Nat) (v : PeerState) (l : List (Nat × PeerState)) :
    insertPeer p v (insertPeer p v l) = insertPeer p v l := by
  induction l with
  | nil => simp [insertPeer]
  | cons e rest ih =>
    by_cases h : e.1 = p
    · simp [insertPeer, h]
    · simp [insertPeer, h, ih]

theorem lookupPeer_modifyPeer_self (p : Nat) (f : PeerState → PeerState)
    (l : List (Nat × PeerState)) :
    lookupPeer p (modifyPeer p f l) = some (f ((lookupPeer p l).getD PeerState.init)) := by
  induction l with
  | nil => simp [modifyPeer, lookupPeer]
  | cons e rest ih =>
    by_cases h : e.1 = p
    · simp [modifyPeer, lookupPeer, h]
    · simp [modifyPeer, lookupPeer, h, ih]

theorem lookupPeer_modifyPeer_ne (p q : Nat) (f : PeerState → PeerState)
    (l : List (Nat × PeerState)) (h : q ≠ p) :
    lookupPeer q (modifyPeer p f l) = lookupPeer q l := by
  induction l with
  | nil => simp [modifyPeer, lookupPeer, Ne.symm h]
  | cons e rest ih =>
    by_cases he : e.1 = p
    · subst he
      simp [modifyPeer, lookupPeer, Ne.symm h]
    · simp only [modifyPeer, he, if_false, lookupPeer]
      by_cases hq : e.1 = q <;> simp [hq, ih]

theorem lookupPeer_removePeer_self (p : Nat) (l : List (Nat × PeerState)) :
    lookupPeer p (removePeer p l) = none := by
  induction l with
  | nil => simp [removePeer, lookupPeer]
  | cons e rest ih =>
    by_cases h : e.1 = p
    · simpa [removePeer, h] using ih
    · simpa [removePeer, lookupPeer, h] using ih

/-! ## Claim C8 -/

/-- Claim C8: for every known peer `p`, after `inject_dial_failure(p, error)`:
for a connection-limit error, `p`'s connection state becomes `Disconnected`,
its pending message is unchanged and it remains in the peer table; for any
other error kind, `p` is absent from the peer table. -/
theorem claim_C8 (st : Bitswap) (p : Nat) (ps : PeerState)
    (hknown : lookupPeer p st.knownPeers = some ps) :
    lookupPeer p (st.injectDialFailure (some p) DialErrorKind.ConnectionLimit).knownPeers
        = some ⟨ConnState.Disconnected, ps.msg⟩ ∧
    lookupPeer p (st.injectDialFailure (some p) DialErrorKind.Other).knownPeers
        = none := by
  constructor
  · simp [Bitswap.injectDialFailure, lookupPeer_modifyPeer_self, hknown]
  · simp [Bitswap.injectDialFailure, lookupPeer_removePeer_self]

/-- Witness for C8 at a concrete state: a known peer with a pending message. -/
theorem claim_C8_witness :
    lookupPeer 4
        ((⟨[], [(4, ⟨ConnState.Dialing, BitswapMessage.empty.wantBlock 1 2⟩)]⟩ :
            Bitswap).injectDialFailure (some 4)
          DialErrorKind.ConnectionLimit).knownPeers
      = some ⟨ConnState.Disconnected, BitswapMessage.empty.wantBlock 1 2⟩ ∧
    lookupPeer 4
        ((⟨[], [(4, ⟨ConnState.Dialing, BitswapMessage.empty.wantBlock 1 2⟩)]⟩ :
            Bitswap).injectDialFailure (some 4) DialErrorKind.Other).knownPeers
      = none :=
  claim_C8 ⟨[], [(4, ⟨ConnState.Dialing, BitswapMessage.empty.wantBlock 1 2⟩)]⟩ 4
    ⟨ConnState.Dialing, BitswapMessage.empty.wantBlock 1 2⟩ (by decide)

/-! ## Claim C9 -/

/-- Counterexample to claim C9: `add_peer` on an already-known peer does not
leave its state unchanged — `known_peers.insert(peer, PeerState::default())`
overwrites the existing connection state and pending message. Here a peer that
was `Connected` with a pending want is reset to the fresh state. -/
theorem counterexample_C9 :
    lookupPeer 3
        ((⟨[], [(3, ⟨ConnState.Connected, BitswapMessage.empty.wantBlock 1 2⟩)]⟩ :
            Bitswap).addPeer 3).knownPeers
      ≠ some ⟨ConnState.Connected, BitswapMessage.empty.wantBlock 1 2⟩ := by
  decide

/-- Claim C9 as amended: `add_peer(p)` always stores the fresh peer state
(`conn = Unknown`, empty pending message) for `p`, overwriting any existing
state; it is idempotent (a second call changes nothing further) and leaves
every other peer and the event queue untouched. -/
theorem claim_C9_amended (st : Bitswap) (p : Nat) :
    lookupPeer p (st.addPeer p).knownPeers = some PeerState.init ∧
    (st.addPeer p).addPeer p = st.addPeer p ∧
    (∀ q, q ≠ p → lookupPeer q (st.addPeer p).knownPeers = lookupPeer q st.knownPeers) ∧
    (st.addPeer p).events = st.events := by
  refine ⟨?_, ?_, ?_, rfl⟩
  · simp [Bitswap.addPeer, lookupPeer_insertPeer_self]
  · simp [Bitswap.addPeer, insertPeer_idem]
  · intro q hq
    simp [Bitswap.addPeer, lookupPeer_insertPeer_ne _ _ _ _ hq]

/-- Witness for the amended C9 at a concrete state. -/
theorem claim_C9_amended_witness :
    lookupPeer 3
        ((⟨[], [(3, ⟨ConnState.Connected, BitswapMessage.empty⟩), (5, PeerState.init)]⟩ :
            Bitswap).addPeer 3).knownPeers = some PeerState.init ∧
    lookupPeer 5
        ((⟨[], [(3, ⟨ConnState.Connected, BitswapMessage.empty⟩), (5, PeerState.init)]⟩ :
            Bitswap).addPeer 3).knownPeers = some PeerState.init := by
  refine ⟨(claim_C9_amended _ 3).1, ?_⟩
  have h := (claim_C9_amended
    (⟨[], [(3, ⟨ConnState.Connected, BitswapMessage.empty⟩), (5, PeerState.init)]⟩ :
      Bitswap) 3).2.2.1 5 (by decide)
  rw [h]
  decide

/-! ## More association-list lemmas -/

theorem lookupPeer_mem (p : Nat) (v : PeerState) (l : List (Nat × PeerState))
    (h : lookupPeer p l = some v) : (p, v) ∈ l := by
  induction l with
  | nil => simp [lookupPeer] at h
  | cons e rest ih =>
    by_cases he : e.1 = p
    · obtain ⟨k, w⟩ := e
      dsimp only at he
      subst he
      simp only [lookupPeer, if_pos, Option.some.injEq] at h
      subst h
      exact List.mem_cons_self _ _
    · simp only [lookupPeer, he, if_neg, if_false] at h
      exact List.mem_cons_of_mem _ (ih h)

theorem lookupPeer_mem_keys (p : Nat) (v : PeerState) (l : List (Nat × PeerState))
    (h : lookupPeer p l = some v) : p ∈ l.map Prod.fst := by
  exact List.mem_map.mpr ⟨(p, v), lookupPeer_mem p v l h, rfl⟩

theorem lookupPeer_of_mem (p : Nat) (v : PeerState) (l : List (Nat × PeerState))
    (hmem : (p, v) ∈ l) (hnd : (l.map Prod.fst).Nodup) : lookupPeer p l = some v := by
  induction l with
  | nil => simp at hmem
  | cons e rest ih =>
    simp only [List.map_cons, List.nodup_cons] at hnd
    rcases List.mem_cons.mp hmem with h | h
    · subst h
      simp [lookupPeer]
    · have hne : e.1 ≠ p := by
        intro he
        exact hnd.1 (he ▸ List.mem_map.mpr ⟨(p, v), h, rfl⟩)
      simp only [lookupPeer, hne, if_false]
      exact ih h hnd.2

/-! ## Claim C4 -/

/-- Full characterisation of the message-dispatch search of `poll`: the found
peer was `Connected` with a non-empty pending message, the returned message is
its prior pending message, the peer's pending message is empty afterwards, and
every other peer is untouched. -/
theorem findTakeMsg_spec (l : List (Nat × PeerState)) (p : Nat)
    (m : BitswapMessage) (l' : List (Nat × PeerState))
    (h : findTakeMsg l = some (p, m, l')) (hnd : (l.map Prod.fst).Nodup) :
    ∃ ps, lookupPeer p l = some ps ∧ ps.isConnected = true ∧ ps.isEmptyP = false ∧
      m = ps.msg ∧ lookupPeer p l' = some ⟨ps.conn, BitswapMessage.empty⟩ ∧
      (∀ q, q ≠ p → lookupPeer q l' = lookupPeer q l) := by
  induction l generalizing l' with
  | nil => simp [findTakeMsg] at h
  | cons e rest ih =>
    obtain ⟨a, ps0⟩ := e
    simp only [List.map_cons, List.nodup_cons] at hnd
    by_cases hc : ps0.isConnected && !ps0.isEmptyP
    · simp only [findTakeMsg, hc, if_pos, Option.some.injEq, Prod.mk.injEq] at h
      obtain ⟨hp, hm, hl'⟩ := h
      subst hp hm hl'
      refine ⟨ps0, by simp [lookupPeer], ?_, ?_, rfl, by simp [lookupPeer], ?_⟩
      · exact (Bool.and_eq_true_iff.mp hc).1
      · simpa using (Bool.and_eq_true_iff.mp hc).2
      · intro q hq
        simp [lookupPeer, Ne.symm hq]
    · simp only [findTakeMsg, hc, if_neg, if_false] at h
      rcases hrest : findTakeMsg rest with _ | res
      · rw [hrest] at h; simp at h
      · rw [hrest] at h
        obtain ⟨q0, m0, rest'⟩ := res
        simp only [Option.some.injEq, Prod.mk.injEq] at h
        obtain ⟨hp, hm, hl'⟩ := h
        obtain ⟨ps, hlook, hconn, hempty, hmsg, hlook', hothers⟩ := ih _ hrest hnd.2
        have hap : a ≠ p := by
          intro hap
          exact hnd.1 (hap ▸ lookupPeer_mem_keys p ps rest hlook)
        refine ⟨ps, ?_, hconn, hempty, hmsg, ?_, ?_⟩
        · simp [lookupPeer, hap, hlook]
        · simp [lookupPeer, hap, hlook']
        · intro q hq
          by_cases hqa : a = q
          · simp [lookupPeer, hqa]
          · simp [lookupPeer, hqa, hothers q hq]

/-- When the message-dispatch search fails, no peer is connected with a
non-empty pending message. -/
theorem findTakeMsg_none (l : List (Nat × PeerState)) (h : findTakeMsg l = none) :
    ∀ e ∈ l, e.2.isConnected = false ∨ e.2.isEmptyP = true := by
  induction l with
  | nil => simp
  | cons e rest ih =>
    by_cases hc : e.2.isConnected && !e.2.isEmptyP
    · simp [findTakeMsg, hc] at h
    · intro x hx
      rcases List.mem_cons.mp hx with hx | hx
      · subst hx
        rcases Bool.and_eq_false_iff.mp (Bool.eq_false_iff.mpr hc) with h1 | h1
        · exact Or.inl h1
        · right
          simpa using h1
      · simp only [findTakeMsg, hc, if_neg, if_false] at h
        rcases hrest : findTakeMsg rest with _ | res
        · exact ih hrest x hx
        · rw [hrest] at h
          obtain ⟨q0, m0, rest'⟩ := res
          simp at h

/-- Full characterisation of the dial-trigger search of `poll`: the found peer
needed a connection (non-empty pending message, `conn ∈ {Unknown,
Disconnected}`), its state becomes `Dialing` with the pending message kept,
and every other peer is untouched. -/
theorem findDial_spec (l : List (Nat × PeerState)) (p : Nat)
    (l' : List (Nat × PeerState)) (h : findDial l = some (p, l'))
    (hnd : (l.map Prod.fst).Nodup) :
    ∃ ps, lookupPeer p l = some ps ∧ ps.needsConnection = true ∧
      lookupPeer p l' = some ⟨ConnState.Dialing, ps.msg⟩ ∧
      (∀ q, q ≠ p → lookupPeer q l' = lookupPeer q l) := by
  induction l generalizing l' with
  | nil => simp [findDial] at h
  | cons e rest ih =>
    obtain ⟨a, ps0⟩ := e
    simp only [List.map_cons, List.nodup_cons] at hnd
    by_cases hc : ps0.needsConnection
    · simp only [findDial, hc, if_pos, Option.some.injEq, Prod.mk.injEq] at h
      obtain ⟨hp, hl'⟩ := h
      subst hp hl'
      refine ⟨ps0, by simp [lookupPeer], hc, by simp [lookupPeer], ?_⟩
      intro q hq
      simp [lookupPeer, Ne.symm hq]
    · simp only [findDial, hc, if_neg, if_false] at h
      rcases hrest : findDial rest with _ | res
      · rw [hrest] at h; simp at h
      · rw [hrest] at h
        obtain ⟨q0, rest'⟩ := res
        simp only [Option.some.injEq, Prod.mk.injEq] at h
        obtain ⟨hp, hl'⟩ := h
        obtain ⟨ps, hlook, hneed, hlook', hothers⟩ := ih _ hrest hnd.2
        have hap : a ≠ p := by
          intro hap
          exact hnd.1 (hap ▸ lookupPeer_mem_keys p ps rest hlook)
        refine ⟨ps, ?_, hneed, ?_, ?_⟩
        · simp [lookupPeer, hap, hlook]
        · simp [lookupPeer, hap, hlook']
        · intro q hq
          by_cases hqa : a = q
          · simp [lookupPeer, hqa]
          · simp [lookupPeer, hqa, hothers q hq]

/-- When the dial-trigger search fails, no peer needs a connection. -/
theorem findDial_none (l : List (Nat × PeerState)) (h : findDial l = none) :
    ∀ e ∈ l, e.2.needsConnection = false := by
  induction l with
  | nil => simp
  | cons e rest ih =>
    by_cases hc : e.2.needsConnection
    · simp [findDial, hc] at h
    · intro x hx
      rcases List.mem_cons.mp hx with hx | hx
      · subst hx
        exact Bool.eq_false_iff.mpr hc
      · simp only [findDial, hc, if_neg, if_false] at h
        rcases hrest : findDial rest with _ | res
        · exact ih hrest x hx
        · rw [hrest] at h
          obtain ⟨q0, rest'⟩ := res
          simp at h

/-- Claim C4: the peer-table poll returns actions in strict priority order:
first any queued action; otherwise it notifies some peer with `conn =
Connected` and a non-empty pending message, handing over that peer's prior
pending message and leaving its pending message empty; otherwise it sets some
peer with a non-empty pending message and `conn ∈ {Unknown, Disconnected}` to
`Dialing` and returns a dial request for it; otherwise there is no work, and
in that case no peer is eligible for either action. -/
theorem claim_C4 (st : Bitswap) (hnd : (st.knownPeers.map Prod.fst).Nodup) :
    (∀ e rest, st.events = e :: rest →
      st.poll = (some e, { st with events := rest })) ∧
    (∀ p m kps, st.events = [] → findTakeMsg st.knownPeers = some (p, m, kps) →
      ∃ ps, lookupPeer p st.knownPeers = some ps ∧
        ps.conn = ConnState.Connected ∧ ps.msg.isEmpty = false ∧ m = ps.msg ∧
        st.poll = (some (BAction.notifyHandler p ps.msg), { st with knownPeers := kps }) ∧
        lookupPeer p kps = some ⟨ps.conn, BitswapMessage.empty⟩ ∧
        (∀ q, q ≠ p → lookupPeer q kps = lookupPeer q st.knownPeers)) ∧
    (∀ p kps, st.events = [] → findTakeMsg st.knownPeers = none →
      findDial st.knownPeers = some (p, kps) →
      ∃ ps, lookupPeer p st.knownPeers = some ps ∧
        ps.msg.isEmpty = false ∧
        (ps.conn = ConnState.Unknown ∨ ps.conn = ConnState.Disconnected) ∧
        st.poll = (some (BAction.dial p), { st with knownPeers := kps }) ∧
        lookupPeer p kps = some ⟨ConnState.Dialing, ps.msg⟩ ∧
        (∀ q, q ≠ p → lookupPeer q kps = lookupPeer q st.knownPeers)) ∧
    (st.events = [] → findTakeMsg st.knownPeers = none →
      findDial st.knownPeers = none →
      st.poll = (none, st) ∧
      ∀ e ∈ st.knownPeers, e.2.msg.isEmpty = true ∨
        (e.2.conn ≠ ConnState.Connected ∧ e.2.conn ≠ ConnState.Unknown ∧
          e.2.conn ≠ ConnState.Disconnected)) := by
  refine ⟨?_, ?_, ?_, ?_⟩
  · intro e rest hev
    simp [Bitswap.poll, hev]
  · intro p m kps hev hfind
    obtain ⟨ps, hlook, hconn, hempty, hmsg, hlook', hothers⟩ :=
      findTakeMsg_spec st.knownPeers p m kps hfind hnd
    refine ⟨ps, hlook, ?_, ?_, hmsg, ?_, hlook', hothers⟩
    · simpa [PeerState.isConnected] using hconn
    · simpa [PeerState.isEmptyP] using hempty
    · simp [Bitswap.poll, hev, hfind, hmsg]
  · intro p kps hev hnofind hdial
    obtain ⟨ps, hlook, hneed, hlook', hothers⟩ :=
      findDial_spec st.knownPeers p kps hdial hnd
    simp only [PeerState.needsConnection, Bool.and_eq_true, Bool.not_eq_true',
      Bool.or_eq_true, decide_eq_true_eq] at hneed
    refine ⟨ps, hlook, ?_, ?_, ?_, hlook', hothers⟩
    · simpa [PeerState.isEmptyP] using hneed.1
    · rcases hneed.2 with h | h
      · exact Or.inr h
      · exact Or.inl h
    · simp [Bitswap.poll, hev, hnofind, hdial]
  · intro hev hnofind hnodial
    refine ⟨by simp [Bitswap.poll, hev, hnofind, hnodial], ?_⟩
    intro e he
    rcases findTakeMsg_none st.knownPeers hnofind e he with hnc | hemp
    · have hnd2 := findDial_none st.knownPeers hnodial e he
      simp only [PeerState.needsConnection, Bool.and_eq_false_iff,
        Bool.not_eq_false', Bool.or_eq_false_iff, decide_eq_false_iff_not] at hnd2
      rcases hnd2 with hemps | hconn
      · left
        simpa [PeerState.isEmptyP] using hemps
      · right
        refine ⟨?_, ?_, ?_⟩
        · intro hc
          simp [PeerState.isConnected, hc] at hnc
        · intro hc
          exact hconn.2 hc
        · intro hc
          exact hconn.1 hc
    · left
      simpa [PeerState.isEmptyP] using hemp

/-- Witness for C4 at a concrete state: a queued action is drained first, and
a connected peer with a pending message is notified when the queue is empty. -/
theorem claim_C4_witness :
    (⟨[BAction.dial 9], [(1, ⟨ConnState.Connected, BitswapMessage.empty.wantBlock 2 3⟩)]⟩ :
        Bitswap).poll
      = (some (BAction.dial 9),
          ⟨[], [(1, ⟨ConnState.Connected, BitswapMessage.empty.wantBlock 2 3⟩)]⟩) := by
  have h := (claim_C4
    (⟨[BAction.dial 9], [(1, ⟨ConnState.Connected, BitswapMessage.empty.wantBlock 2 3⟩)]⟩ :
      Bitswap) (by decide)).1 (BAction.dial 9) [] rfl
  simpa using h

/-! ## Claim C5 -/

/-- The ids listed by `connected_peers` form a sublist of the table keys. -/
theorem connectedPeers_sublist (st : Bitswap) :
    st.connectedPeers.Sublist (st.knownPeers.map Prod.fst) := by
  unfold Bitswap.connectedPeers
  induction st.knownPeers with
  | nil => simp
  | cons e rest ih =>
    rcases hc : e.2.conn with _ | _ | _ | _ <;>
      simp only [List.filterMap_cons, hc, List.map_cons] <;>
      first
        | exact List.Sublist.cons _ ih
        | exact List.Sublist.cons₂ _ ih

/-- Membership in `connected_peers` means a table entry with connection state
`Connected` or `Unknown`. -/
theorem mem_connectedPeers (st : Bitswap) (p : Nat) (h : p ∈ st.connectedPeers) :
    ∃ ps, (p, ps) ∈ st.knownPeers ∧
      (ps.conn = ConnState.Connected ∨ ps.conn = ConnState.Unknown) := by
  unfold Bitswap.connectedPeers at h
  rcases List.mem_filterMap.mp h with ⟨e, hmem, he⟩
  rcases hc : e.2.conn with _ | _ | _ | _ <;> rw [hc] at he <;> simp at he
  · obtain rfl : e.1 = p := he
    exact ⟨e.2, by simpa using hmem, Or.inr hc⟩
  · obtain rfl : e.1 = p := he
    exact ⟨e.2, by simpa using hmem, Or.inl hc⟩

/-- A fold of per-peer modifications does not touch peers outside the list. -/
theorem lookupPeer_foldl_modify_not_mem (g : PeerState → PeerState) (ds : List Nat)
    (l : List (Nat × PeerState)) (p : Nat) (hp : p ∉ ds) :
    lookupPeer p (ds.foldl (fun kps q => modifyPeer q g kps) l) = lookupPeer p l := by
  induction ds generalizing l with
  | nil => rfl
  | cons d ds' ih =>
    simp only [List.mem_cons, not_or] at hp
    rw [List.foldl_cons, ih _ hp.2, lookupPeer_modifyPeer_ne d p g l hp.1]

/-- A fold of per-peer modifications over distinct peers applies the
modification once to each listed peer. -/
theorem lookupPeer_foldl_modify_mem (g : PeerState → PeerState) (ds : List Nat)
    (l : List (Nat × PeerState)) (p : Nat) (hnd : ds.Nodup) (hp : p ∈ ds) :
    lookupPeer p (ds.foldl (fun kps q => modifyPeer q g kps) l)
      = some (g ((lookupPeer p l).getD PeerState.init)) := by
  induction ds generalizing l with
  | nil => simp at hp
  | cons d ds' ih =>
    simp only [List.nodup_cons] at hnd
    rw [List.foldl_cons]
    by_cases hd : p = d
    · subst hd
      rw [lookupPeer_foldl_modify_not_mem g ds' _ p hnd.1,
        lookupPeer_modifyPeer_self]
    · have hp' : p ∈ ds' := by
        rcases List.mem_cons.mp hp with h | h
        · exact absurd h hd
        · exact h
      rw [ih _ hnd.2 hp', lookupPeer_modifyPeer_ne d p g l (Ne.symm (fun h => hd h.symm))]

/-- Counterexample to claim C5: `connected_peers` (and hence `find_providers`)
also selects peers whose connection state is `Unknown`, not only `Connected`
ones. A single known peer in the initial `Unknown` state gets a want-have
entry recorded. -/
theorem counterexample_C5 :
    (⟨[], [(7, PeerState.init)]⟩ : Bitswap).findProvidersPeers = [7] ∧
    lookupPeer 7 ((⟨[], [(7, PeerState.init)]⟩ : Bitswap).findProvidersB 9 1).knownPeers
      = some ⟨ConnState.Unknown, BitswapMessage.empty.wantHaveBlock 9 1⟩ ∧
    (⟨[], [(7, PeerState.init)]⟩ : Bitswap).knownPeers.map (fun e => e.2.conn)
      ≠ [ConnState.Connected] := by
  refine ⟨by decide, by decide, by decide⟩

/-- Claim C5 as amended: `find_providers(cid, priority)` records a want-have
entry on the peers of `findProvidersPeers`, a list of at most
`MAX_PROVIDERS = 10` peers each of whose connection state is `Connected` or
`Unknown` at the time of the call; every other peer is untouched. -/
theorem claim_C5_amended (st : Bitswap) (cid prio : Nat)
    (hnd : (st.knownPeers.map Prod.fst).Nodup) :
    st.findProvidersPeers.length ≤ MAX_PROVIDERS ∧
    (∀ p ∈ st.findProvidersPeers, ∃ ps, lookupPeer p st.knownPeers = some ps ∧
      (ps.conn = ConnState.Connected ∨ ps.conn = ConnState.Unknown)) ∧
    (∀ p ∈ st.findProvidersPeers,
      lookupPeer p (st.findProvidersB cid prio).knownPeers
        = (lookupPeer p st.knownPeers).map
            (fun ps => ⟨ps.conn, ps.msg.wantHaveBlock cid prio⟩)) ∧
    (∀ p, p ∉ st.findProvidersPeers →
      lookupPeer p (st.findProvidersB cid prio).knownPeers
        = lookupPeer p st.knownPeers) := by
  have hsub : st.findProvidersPeers.Sublist st.connectedPeers :=
    List.take_sublist _ _
  have hndsel : st.findProvidersPeers.Nodup :=
    ((connectedPeers_sublist st).nodup hnd).sublist hsub
  refine ⟨?_, ?_, ?_, ?_⟩
  · exact le_trans (List.length_take_le _ _) (le_refl _)
  · intro p hp
    obtain ⟨ps, hmem, hconn⟩ := mem_connectedPeers st p (hsub.subset hp)
    exact ⟨ps, lookupPeer_of_mem p ps st.knownPeers hmem hnd, hconn⟩
  · intro p hp
    obtain ⟨ps, hmem, _⟩ := mem_connectedPeers st p (hsub.subset hp)
    have hlook := lookupPeer_of_mem p ps st.knownPeers hmem hnd
    unfold Bitswap.findProvidersB
    rw [lookupPeer_foldl_modify_mem _ _ _ _ hndsel hp, hlook]
    rfl
  · intro p hp
    unfold Bitswap.findProvidersB
    exact lookupPeer_foldl_modify_not_mem _ _ _ _ hp

/-- Witness for the amended C5: two peers, one `Connected` and one `Dialing`;
only the former receives the want-have entry. -/
theorem claim_C5_amended_witness :
    lookupPeer 1
        ((⟨[], [(1, ⟨ConnState.Connected, BitswapMessage.empty⟩),
                (2, ⟨ConnState.Dialing, BitswapMessage.empty⟩)]⟩ :
            Bitswap).findProvidersB 9 5).knownPeers
      = some ⟨ConnState.Connected, BitswapMessage.empty.wantHaveBlock 9 5⟩ ∧
    lookupPeer 2
        ((⟨[], [(1, ⟨ConnState.Connected, BitswapMessage.empty⟩),
                (2, ⟨ConnState.Dialing, BitswapMessage.empty⟩)]⟩ :
            Bitswap).findProvidersB 9 5).knownPeers
      = some ⟨ConnState.Dialing, BitswapMessage.empty⟩ := by
  have h := claim_C5_amended
    (⟨[], [(1, ⟨ConnState.Connected, BitswapMessage.empty⟩),
           (2, ⟨ConnState.Dialing, BitswapMessage.empty⟩)]⟩ : Bitswap) 9 5 (by decide)
  refine ⟨?_, ?_⟩
  · have h1 := h.2.2.1 1 (by decide)
    rw [h1]
    decide
  · have h2 := h.2.2.2 2 (by decide)
    rw [h2]
    decide

/-! ## Claim C6 -/

/-- Claim C6 fails on the code: `inject_event` iterates over every block
presence of an inbound message without inspecting its kind, so a `DontHave`
presence also emits a `FindProviders(Ok)` completion event and drops the
pending want-have entries — here evaluated at the failing input: peer 2 sends
a message whose only content is a `DontHave` presence for cid 9 while peer 1
has a pending want-have for cid 9. -/
theorem claim_C6_bug :
    (⟨[], [(1, ⟨ConnState.Connected, BitswapMessage.empty.wantHaveBlock 9 5⟩)]⟩ :
        Bitswap).injectEvent 2 ⟨⟨[]⟩, [], [⟨9, PresenceKind.DontHave⟩]⟩
      = ⟨[BAction.generateEvent (BitswapEvent.findProvidersOk 9 2)],
          [(1, ⟨ConnState.Connected, BitswapMessage.empty⟩)]⟩ := by
  decide

/-! ## Generic lemmas about the registry sweep -/

/-- Unfolding of the sweep at a kept entry. -/
theorem sift_cons_inl (f : Nat → Query → Query ⊕ γ) (a : Nat) (qa q' : Query)
    (rest : List (Nat × Query)) (hfa : f a qa = Sum.inl q') :
    sift f ((a, qa) :: rest) = ((a, q') :: (sift f rest).1, (sift f rest).2) := by
  simp [sift, hfa]

/-- Unfolding of the sweep at a removed entry. -/
theorem sift_cons_inr (f : Nat → Query → Query ⊕ γ) (a : Nat) (qa : Query)
    (g : γ) (rest : List (Nat × Query)) (hfa : f a qa = Sum.inr g) :
    sift f ((a, qa) :: rest) = ((sift f rest).1, (a, g) :: (sift f rest).2) := by
  simp [sift, hfa]

theorem sift_kept_keys_sublist (f : Nat → Query → Query ⊕ γ)
    (l : List (Nat × Query)) :
    ((sift f l).1.map Prod.fst).Sublist (l.map Prod.fst) := by
  induction l with
  | nil => simp [sift]
  | cons e rest ih =>
    obtain ⟨id, q⟩ := e
    rcases hf : f id q with q' | g
    · rw [sift_cons_inl f id q q' rest hf]
      simpa using List.Sublist.cons₂ id ih
    · rw [sift_cons_inr f id q g rest hf]
      simpa using List.Sublist.cons id ih

theorem sift_removed_keys_sublist (f : Nat → Query → Query ⊕ γ)
    (l : List (Nat × Query)) :
    ((sift f l).2.map Prod.fst).Sublist (l.map Prod.fst) := by
  induction l with
  | nil => simp [sift]
  | cons e rest ih =>
    obtain ⟨id, q⟩ := e
    rcases hf : f id q with q' | g
    · rw [sift_cons_inl f id q q' rest hf]
      simpa using List.Sublist.cons id ih
    · rw [sift_cons_inr f id q g rest hf]
      simpa using List.Sublist.cons₂ id ih

theorem sift_mem_kept (f : Nat → Query → Query ⊕ γ) {l : List (Nat × Query)}
    {id : Nat} {q q' : Query} (hmem : (id, q) ∈ l) (hf : f id q = Sum.inl q') :
    (id, q') ∈ (sift f l).1 := by
  induction l with
  | nil => simp at hmem
  | cons e rest ih =>
    obtain ⟨a, qa⟩ := e
    rcases List.mem_cons.mp hmem with h | h
    · simp only [Prod.mk.injEq] at h
      obtain ⟨h1, h2⟩ := h
      subst h1
      subst h2
      rw [sift_cons_inl f id q q' rest hf]
      exact List.mem_cons_self _ _
    · rcases hfa : f a qa with qa' | ga
      · rw [sift_cons_inl f a qa qa' rest hfa]
        exact List.mem_cons_of_mem _ (ih h)
      · rw [sift_cons_inr f a qa ga rest hfa]
        exact ih h

theorem sift_mem_removed (f : Nat → Query → Query ⊕ γ) {l : List (Nat × Query)}
    {id : Nat} {q : Query} {g : γ} (hmem : (id, q) ∈ l) (hf : f id q = Sum.inr g) :
    (id, g) ∈ (sift f l).2 := by
  induction l with
  | nil => simp at hmem
  | cons e rest ih =>
    obtain ⟨a, qa⟩ := e
    rcases List.mem_cons.mp hmem with h | h
    · simp only [Prod.mk.injEq] at h
      obtain ⟨h1, h2⟩ := h
      subst h1
      subst h2
      rw [sift_cons_inr f id q g rest hf]
      exact List.mem_cons_self _ _
    · rcases hfa : f a qa with qa' | ga
      · rw [sift_cons_inl f a qa qa' rest hfa]
        exact ih h
      · rw [sift_cons_inr f a qa ga rest hfa]
        exact List.mem_cons_of_mem _ (ih h)

/-- An id removed by the sweep no longer occurs among the kept entries (for a
registry with distinct keys). -/
theorem sift_removed_not_kept (f : Nat → Query → Query ⊕ γ)
    {l : List (Nat × Query)} (hnd : (l.map Prod.fst).Nodup) {id : Nat}
    (hid : id ∈ (sift f l).2.map Prod.fst) :
    id ∉ (sift f l).1.map Prod.fst := by
  induction l with
  | nil => simp [sift] at hid
  | cons e rest ih =>
    obtain ⟨a, qa⟩ := e
    simp only [List.map_cons, List.nodup_cons] at hnd
    rcases hfa : f a qa with qa' | ga
    · rw [sift_cons_inl f a qa qa' rest hfa] at hid ⊢
      simp only [List.map_cons, List.mem_cons, not_or]
      have hidr : id ∈ (sift f rest).2.map Prod.fst := by simpa using hid
      refine ⟨?_, ih hnd.2 hidr⟩
      intro hia
      subst hia
      exact hnd.1 ((sift_removed_keys_sublist f rest).subset hidr)
    · rw [sift_cons_inr f a qa ga rest hfa] at hid ⊢
      simp only [List.map_cons, List.mem_cons] at hid
      rcases hid with h | h
      · subst h
        intro hmem
        exact hnd.1 ((sift_kept_keys_sublist f rest).subset hmem)
      · exact ih hnd.2 h

/-- Ids removed by the sweep come from the registry. -/
theorem sift_removed_keys_subset (f : Nat → Query → Query ⊕ γ)
    (l : List (Nat × Query)) {id : Nat}
    (hid : id ∈ (sift f l).2.map Prod.fst) : id ∈ l.map Prod.fst :=
  (sift_removed_keys_sublist f l).subset hid

/-! ## Claim C2 -/

/-- Claim C2: a Have announcement matching a `FindProviders` query inserts the
peer into the accumulated providers set; the query is removed, completing with
its id and providers set, exactly when afterwards the candidate peers set is
empty or the providers count at least 40; otherwise it stays with the enlarged
providers set; and a query id no longer in the registry can never appear in a
later call's results. -/
theorem claim_C2 (qm : QueryManager) (peer : Nat) (bp : BlockPresence)
    (id cid : Nat) (peers provs : Finset Nat) (st : QState) (pr : Nat)
    (hnd : (qmKeys qm).Nodup)
    (hk : bp.kind = PresenceKind.Have) (hc : bp.cid = cid)
    (hmem : (id, Query.FindProviders cid peers provs st pr) ∈ qm.queries) :
    ((peers = ∅ ∨ 40 ≤ (insert peer provs).card) →
      (id, insert peer provs) ∈ (qm.processBlockPresence peer bp).1 ∧
      id ∉ qmKeys (qm.processBlockPresence peer bp).2) ∧
    (¬(peers = ∅ ∨ 40 ≤ (insert peer provs).card) →
      (id, Query.FindProviders cid peers (insert peer provs) st pr)
          ∈ (qm.processBlockPresence peer bp).2.queries ∧
      id ∉ (qm.processBlockPresence peer bp).1.map Prod.fst) ∧
    (∀ j, j ∉ qmKeys qm → j ∉ (qm.processBlockPresence peer bp).1.map Prod.fst) := by
  have hhave : bp.isHave = true := by simp [BlockPresence.isHave, hk]
  refine ⟨?_, ?_, ?_⟩
  · intro hdone
    have hf : presenceF peer bp id (Query.FindProviders cid peers provs st pr)
        = Sum.inr (insert peer provs) := by
      have hcond : (decide (peers = ∅) || decide (40 ≤ (insert peer provs).card)) = true := by
        rcases hdone with h | h <;> simp [h]
      simp [presenceF, hhave, hc, hcond, ge_iff_le]
    have hrem := sift_mem_removed (presenceF peer bp) hmem hf
    refine ⟨hrem, ?_⟩
    have hidk : id ∈ (sift (presenceF peer bp) qm.queries).2.map Prod.fst :=
      List.mem_map.mpr ⟨(id, insert peer provs), hrem, rfl⟩
    exact sift_removed_not_kept (presenceF peer bp) hnd hidk
  · intro hkeep
    have hf : presenceF peer bp id (Query.FindProviders cid peers provs st pr)
        = Sum.inl (Query.FindProviders cid peers (insert peer provs) st pr) := by
      have hcond : (decide (peers = ∅) || decide (40 ≤ (insert peer provs).card)) = false := by
        push_neg at hkeep
        simp [hkeep.1, Nat.not_le.mpr hkeep.2]
      simp [presenceF, hhave, hc, hcond, ge_iff_le]
    have hkept := sift_mem_kept (presenceF peer bp) hmem hf
    refine ⟨hkept, ?_⟩
    intro hin
    exact sift_removed_not_kept (presenceF peer bp) hnd hin
      (List.mem_map.mpr ⟨_, hkept, rfl⟩)
  · intro j hj hin
    exact hj (sift_removed_keys_subset (presenceF peer bp) qm.queries hin)

/-- Witness for C2: a `FindProviders` for cid 9 whose candidate set is already
empty completes with the inserted provider on the first matching Have. -/
theorem claim_C2_witness :
    (0, insert 5 (∅ : Finset Nat)) ∈
      (QueryManager.processBlockPresence 5 ⟨9, PresenceKind.Have⟩
        ⟨[(0, Query.FindProviders 9 ∅ ∅ QState.New 1)], 1⟩).1 ∧
    0 ∉ qmKeys (QueryManager.processBlockPresence 5 ⟨9, PresenceKind.Have⟩
        ⟨[(0, Query.FindProviders 9 ∅ ∅ QState.New 1)], 1⟩).2 :=
  (claim_C2 ⟨[(0, Query.FindProviders 9 ∅ ∅ QState.New 1)], 1⟩ 5 ⟨9, PresenceKind.Have⟩
      0 9 ∅ ∅ QState.New 1 (by decide) rfl rfl (by simp)).1 (Or.inl rfl)

/-! ## Claim C1 -/

/-- The queries kept by `process_block` are exactly the non-matching ones,
unchanged. -/
theorem processBlock_sift_kept (c : Nat) (l : List (Nat × Query)) :
    (sift (processBlockF c) l).1 = l.filter (fun e => !(wantMatches c e.2)) := by
  induction l with
  | nil => simp [sift]
  | cons e rest ih =>
    obtain ⟨a, qa⟩ := e
    cases qa with
    | Want prov cid prio st =>
      cases st with
      | New =>
        by_cases hcid : cid = c
        · have hf : processBlockF c a (Query.Want prov cid prio QState.New)
              = Sum.inr (prov, none) := by simp [processBlockF, hcid]
          rw [sift_cons_inr _ _ _ _ _ hf]
          simp [wantMatches, hcid, ih]
        · have hf : processBlockF c a (Query.Want prov cid prio QState.New)
              = Sum.inl (Query.Want prov cid prio QState.New) := by
            simp [processBlockF, hcid]
          rw [sift_cons_inl _ _ _ _ _ hf]
          simp [wantMatches, hcid, ih]
      | Sent s =>
        by_cases hcid : cid = c
        · have hf : processBlockF c a (Query.Want prov cid prio (QState.Sent s))
              = Sum.inr (prov, some s) := by simp [processBlockF, hcid]
          rw [sift_cons_inr _ _ _ _ _ hf]
          simp [wantMatches, hcid, ih]
        · have hf : processBlockF c a (Query.Want prov cid prio (QState.Sent s))
              = Sum.inl (Query.Want prov cid prio (QState.Sent s)) := by
            simp [processBlockF, hcid]
          rw [sift_cons_inl _ _ _ _ _ hf]
          simp [wantMatches, hcid, ih]
    | FindProviders c2 pe pr st2 prio =>
      have hf : processBlockF c a (Query.FindProviders c2 pe pr st2 prio)
          = Sum.inl (Query.FindProviders c2 pe pr st2 prio) := by simp [processBlockF]
      rw [sift_cons_inl _ _ _ _ _ hf]
      simp [wantMatches, ih]
    | Cancel prov2 cid2 st2 =>
      have hf : processBlockF c a (Query.Cancel prov2 cid2 st2)
          = Sum.inl (Query.Cancel prov2 cid2 st2) := by simp [processBlockF]
      rw [sift_cons_inl _ _ _ _ _ hf]
      simp [wantMatches, ih]
    | Send r blk st2 =>
      have hf : processBlockF c a (Query.Send r blk st2)
          = Sum.inl (Query.Send r blk st2) := by simp [processBlockF]
      rw [sift_cons_inl _ _ _ _ _ hf]
      simp [wantMatches, ih]
    | SendHave r cid2 st2 =>
      have hf : processBlockF c a (Query.SendHave r cid2 st2)
          = Sum.inl (Query.SendHave r cid2 st2) := by simp [processBlockF]
      rw [sift_cons_inl _ _ _ _ _ hf]
      simp [wantMatches, ih]

/-- The ids `process_block` removes are those of the matching `Want`s, in
registry order. -/
theorem processBlock_sift_removed_ids (c : Nat) (l : List (Nat × Query)) :
    (sift (processBlockF c) l).2.map Prod.fst
      = (l.filter (fun e => wantMatches c e.2)).map Prod.fst := by
  induction l with
  | nil => simp [sift]
  | cons e rest ih =>
    obtain ⟨a, qa⟩ := e
    cases qa with
    | Want prov cid prio st =>
      cases st with
      | New =>
        by_cases hcid : cid = c
        · have hf : processBlockF c a (Query.Want prov cid prio QState.New)
              = Sum.inr (prov, none) := by simp [processBlockF, hcid]
          rw [sift_cons_inr _ _ _ _ _ hf]
          simp [wantMatches, hcid, ih]
        · have hf : processBlockF c a (Query.Want prov cid prio QState.New)
              = Sum.inl (Query.Want prov cid prio QState.New) := by
            simp [processBlockF, hcid]
          rw [sift_cons_inl _ _ _ _ _ hf]
          simp [wantMatches, hcid, ih]
      | Sent s =>
        by_cases hcid : cid = c
        · have hf : processBlockF c a (Query.Want prov cid prio (QState.Sent s))
              = Sum.inr (prov, some s) := by simp [processBlockF, hcid]
          rw [sift_cons_inr _ _ _ _ _ hf]
          simp [wantMatches, hcid, ih]
        · have hf : processBlockF c a (Query.Want prov cid prio (QState.Sent s))
              = Sum.inl (Query.Want prov cid prio (QState.Sent s)) := by
            simp [processBlockF, hcid]
          rw [sift_cons_inl _ _ _ _ _ hf]
          simp [wantMatches, hcid, ih]
    | FindProviders c2 pe pr st2 prio =>
      have hf : processBlockF c a (Query.FindProviders c2 pe pr st2 prio)
          = Sum.inl (Query.FindProviders c2 pe pr st2 prio) := by simp [processBlockF]
      rw [sift_cons_inl _ _ _ _ _ hf]
      simp [wantMatches, ih]
    | Cancel prov2 cid2 st2 =>
      have hf : processBlockF c a (Query.Cancel prov2 cid2 st2)
          = Sum.inl (Query.Cancel prov2 cid2 st2) := by simp [processBlockF]
      rw [sift_cons_inl _ _ _ _ _ hf]
      simp [wantMatches, ih]
    | Send r blk st2 =>
      have hf : processBlockF c a (Query.Send r blk st2)
          = Sum.inl (Query.Send r blk st2) := by simp [processBlockF]
      rw [sift_cons_inl _ _ _ _ _ hf]
      simp [wantMatches, ih]
    | SendHave r cid2 st2 =>
      have hf : processBlockF c a (Query.SendHave r cid2 st2)
          = Sum.inl (Query.SendHave r cid2 st2) := by simp [processBlockF]
      rw [sift_cons_inl _ _ _ _ _ hf]
      simp [wantMatches, ih]

/-- The cancel sets `process_block` generates match the registry description. -/
theorem processBlock_cancels_eq (sender c : Nat) (l : List (Nat × Query)) :
    processBlockCancels sender (sift (processBlockF c) l).2
      = cancelSetsFor sender c l := by
  induction l with
  | nil => simp [sift, processBlockCancels, cancelSetsFor]
  | cons e rest ih =>
    obtain ⟨a, qa⟩ := e
    cases qa with
    | Want prov cid prio st =>
      cases st with
      | New =>
        by_cases hcid : cid = c
        · have hf : processBlockF c a (Query.Want prov cid prio QState.New)
              = Sum.inr (prov, none) := by simp [processBlockF, hcid]
          rw [sift_cons_inr _ _ _ _ _ hf]
          simp only [processBlockCancels, cancelSetsFor, List.filterMap_cons] at ih ⊢
          simpa [hcid] using ih
        · have hf : processBlockF c a (Query.Want prov cid prio QState.New)
              = Sum.inl (Query.Want prov cid prio QState.New) := by
            simp [processBlockF, hcid]
          rw [sift_cons_inl _ _ _ _ _ hf]
          simp only [processBlockCancels, cancelSetsFor, List.filterMap_cons] at ih ⊢
          simpa [hcid] using ih
      | Sent s =>
        by_cases hcid : cid = c
        · have hf : processBlockF c a (Query.Want prov cid prio (QState.Sent s))
              = Sum.inr (prov, some s) := by simp [processBlockF, hcid]
          rw [sift_cons_inr _ _ _ _ _ hf]
          simp only [processBlockCancels, cancelSetsFor, List.filterMap_cons] at ih ⊢
          by_cases hs : s.erase sender = ∅ <;> simp [hs, hcid, ih]
        · have hf : processBlockF c a (Query.Want prov cid prio (QState.Sent s))
              = Sum.inl (Query.Want prov cid prio (QState.Sent s)) := by
            simp [processBlockF, hcid]
          rw [sift_cons_inl _ _ _ _ _ hf]
          simp only [processBlockCancels, cancelSetsFor, List.filterMap_cons] at ih ⊢
          simpa [hcid] using ih
    | FindProviders c2 pe pr st2 prio =>
      have hf : processBlockF c a (Query.FindProviders c2 pe pr st2 prio)
          = Sum.inl (Query.FindProviders c2 pe pr st2 prio) := by simp [processBlockF]
      rw [sift_cons_inl _ _ _ _ _ hf]
      simp only [processBlockCancels, cancelSetsFor, List.filterMap_cons] at ih ⊢
      simpa using ih
    | Cancel prov2 cid2 st2 =>
      have hf : processBlockF c a (Query.Cancel prov2 cid2 st2)
          = Sum.inl (Query.Cancel prov2 cid2 st2) := by simp [processBlockF]
      rw [sift_cons_inl _ _ _ _ _ hf]
      simp only [processBlockCancels, cancelSetsFor, List.filterMap_cons] at ih ⊢
      simpa using ih
    | Send r blk st2 =>
      have hf : processBlockF c a (Query.Send r blk st2)
          = Sum.inl (Query.Send r blk st2) := by simp [processBlockF]
      rw [sift_cons_inl _ _ _ _ _ hf]
      simp only [processBlockCancels, cancelSetsFor, List.filterMap_cons] at ih ⊢
      simpa using ih
    | SendHave r cid2 st2 =>
      have hf : processBlockF c a (Query.SendHave r cid2 st2)
          = Sum.inl (Query.SendHave r cid2 st2) := by simp [processBlockF]
      rw [sift_cons_inl _ _ _ _ _ hf]
      simp only [processBlockCancels, cancelSetsFor, List.filterMap_cons] at ih ⊢
      simpa using ih

/-- The unused-provider accumulation of `process_block` equals the union over
the matching `Want`s' candidate sets. -/
theorem processBlock_unused_eq (c : Nat) (l : List (Nat × Query)) :
    ∀ A : Finset Nat,
      (sift (processBlockF c) l).2.foldl (fun acc e => acc ∪ e.2.1) A
        = (l.filter (fun e => wantMatches c e.2)).foldl
            (fun acc e => acc ∪ wantProvidersOf e.2) A := by
  induction l with
  | nil => intro A; simp [sift]
  | cons e rest ih =>
    intro A
    obtain ⟨a, qa⟩ := e
    cases qa with
    | Want prov cid prio st =>
      cases st with
      | New =>
        by_cases hcid : cid = c
        · have hf : processBlockF c a (Query.Want prov cid prio QState.New)
              = Sum.inr (prov, none) := by simp [processBlockF, hcid]
          rw [sift_cons_inr _ _ _ _ _ hf]
          simp [wantMatches, wantProvidersOf, hcid, ih]
        · have hf : processBlockF c a (Query.Want prov cid prio QState.New)
              = Sum.inl (Query.Want prov cid prio QState.New) := by
            simp [processBlockF, hcid]
          rw [sift_cons_inl _ _ _ _ _ hf]
          simp [wantMatches, hcid, ih]
      | Sent s =>
        by_cases hcid : cid = c
        · have hf : processBlockF c a (Query.Want prov cid prio (QState.Sent s))
              = Sum.inr (prov, some s) := by simp [processBlockF, hcid]
          rw [sift_cons_inr _ _ _ _ _ hf]
          simp [wantMatches, wantProvidersOf, hcid, ih]
        · have hf : processBlockF c a (Query.Want prov cid prio (QState.Sent s))
              = Sum.inl (Query.Want prov cid prio (QState.Sent s)) := by
            simp [processBlockF, hcid]
          rw [sift_cons_inl _ _ _ _ _ hf]
          simp [wantMatches, hcid, ih]
    | FindProviders c2 pe pr st2 prio =>
      have hf : processBlockF c a (Query.FindProviders c2 pe pr st2 prio)
          = Sum.inl (Query.FindProviders c2 pe pr st2 prio) := by simp [processBlockF]
      rw [sift_cons_inl _ _ _ _ _ hf]
      simp [wantMatches, ih]
    | Cancel prov2 cid2 st2 =>
      have hf : processBlockF c a (Query.Cancel prov2 cid2 st2)
          = Sum.inl (Query.Cancel prov2 cid2 st2) := by simp [processBlockF]
      rw [sift_cons_inl _ _ _ _ _ hf]
      simp [wantMatches, ih]
    | Send r blk st2 =>
      have hf : processBlockF c a (Query.Send r blk st2)
          = Sum.inl (Query.Send r blk st2) := by simp [processBlockF]
      rw [sift_cons_inl _ _ _ _ _ hf]
      simp [wantMatches, ih]
    | SendHave r cid2 st2 =>
      have hf : processBlockF c a (Query.SendHave r cid2 st2)
          = Sum.inl (Query.SendHave r cid2 st2) := by simp [processBlockF]
      rw [sift_cons_inl _ _ _ _ _ hf]
      simp [wantMatches, ih]

/-- Folding `new_query` over a list of cancel sets appends fresh sequential
entries (when the counter does not wrap). -/
theorem foldl_newQuery_spec (c : Nat) (cs : List (Finset Nat)) :
    ∀ qm : QueryManager, qm.nextId + cs.length < U64 →
      (cs.foldl (fun acc s => (acc.newQuery (Query.Cancel s c QState.New)).2) qm).queries
          = qm.queries ++ cancelEntries c qm.nextId cs ∧
      (cs.foldl (fun acc s => (acc.newQuery (Query.Cancel s c QState.New)).2) qm).nextId
          = qm.nextId + cs.length := by
  induction cs with
  | nil => intro qm h; simp [cancelEntries]
  | cons s rest ih =>
    intro qm h
    have h1 : qm.nextId + 1 < U64 := by
      simp only [List.length_cons] at h
      omega
    have hmod : (qm.nextId + 1) % U64 = qm.nextId + 1 := Nat.mod_eq_of_lt h1
    have hstep : (qm.newQuery (Query.Cancel s c QState.New)).2
        = ⟨qm.queries ++ [(qm.nextId, Query.Cancel s c QState.New)], qm.nextId + 1⟩ := by
      simp [QueryManager.newQuery, hmod]
    have h2 : (qm.nextId + 1) + rest.length < U64 := by
      simp only [List.length_cons] at h
      omega
    have ihr := ih ⟨qm.queries ++ [(qm.nextId, Query.Cancel s c QState.New)], qm.nextId + 1⟩
      (by simpa using h2)
    refine ⟨?_, ?_⟩
    · rw [List.foldl_cons, hstep, ihr.1]
      simp [cancelEntries, List.append_assoc]
    · rw [List.foldl_cons, hstep, ihr.2]
      simp only [List.length_cons]
      omega

/-- Counterexample to claim C1: when the removed `Want` was in state
`Sent({p})` — so that `S \ {p}` is empty — `process_block(p, b)` creates no
`Cancel` query at all (`if !providers.is_empty()` in the source): the registry
is empty afterwards, while the claim demands a `Cancel` targeting the empty
set to exist. -/
theorem counterexample_C1 :
    ((⟨[(0, Query.Want ∅ 1 9 (QState.Sent {5}))], 1⟩ :
        QueryManager).processBlock 5 ⟨1, 7⟩).2.queries = [] ∧
    ((⟨[(0, Query.Want ∅ 1 9 (QState.Sent {5}))], 1⟩ :
        QueryManager).processBlock 5 ⟨1, 7⟩).1 = (∅, [0]) := by
  constructor
  · decide
  · decide

/-- Claim C1 as amended: `process_block(p, b)` removes exactly the `Want`
queries whose CID equals `b.cid`, returns the union of their still-unused
provider sets together with their ids in registry order, and appends one fresh
`Cancel` query targeting `S \ {p}` for each removed `Want` in state `Sent(S)`
with `S \ {p}` non-empty; when `S \ {p}` is empty no `Cancel` is created. -/
theorem claim_C1_amended (qm : QueryManager) (sender : Nat) (b : Block)
    (hw : qm.nextId + (cancelSetsFor sender b.cid qm.queries).length < U64) :
    ((qm.processBlock sender b).1).2
        = (qm.queries.filter (fun e => wantMatches b.cid e.2)).map Prod.fst ∧
    ((qm.processBlock sender b).1).1
        = (qm.queries.filter (fun e => wantMatches b.cid e.2)).foldl
            (fun acc e => acc ∪ wantProvidersOf e.2) ∅ ∧
    ((qm.processBlock sender b).2).queries
        = qm.queries.filter (fun e => !(wantMatches b.cid e.2))
            ++ cancelEntries b.cid qm.nextId (cancelSetsFor sender b.cid qm.queries) ∧
    ((qm.processBlock sender b).2).nextId
        = qm.nextId + (cancelSetsFor sender b.cid qm.queries).length := by
  have hfold := foldl_newQuery_spec b.cid (cancelSetsFor sender b.cid qm.queries)
    ⟨(sift (processBlockF b.cid) qm.queries).1, qm.nextId⟩ hw
  refine ⟨?_, ?_, ?_, ?_⟩
  · simp only [QueryManager.processBlock]
    exact processBlock_sift_removed_ids b.cid qm.queries
  · simp only [QueryManager.processBlock]
    exact processBlock_unused_eq b.cid qm.queries ∅
  · simp only [QueryManager.processBlock, processBlock_cancels_eq]
    rw [hfold.1, processBlock_sift_kept]
  · simp only [QueryManager.processBlock, processBlock_cancels_eq]
    rw [hfold.2]

/-- Witness for the amended C1: a `Want` in state `Sent({5, 6})` satisfied by
sender 5 produces a `Cancel` targeting `{6}`. -/
theorem claim_C1_witness :
    ((⟨[(0, Query.Want ∅ 1 9 (QState.Sent ({5, 6} : Finset Nat)))], 1⟩ :
        QueryManager).processBlock 5 ⟨1, 7⟩).2.queries
      = [(1, Query.Cancel ({6} : Finset Nat) 1 QState.New)] := by
  have h := claim_C1_amended
    ⟨[(0, Query.Want ∅ 1 9 (QState.Sent ({5, 6} : Finset Nat)))], 1⟩ 5 ⟨1, 7⟩ (by decide)
  rw [h.2.2.1]
  decide

/-! ## Claim C3 -/

/-- The queries kept by `cancel` are exactly the non-matching ones,
unchanged. -/
theorem cancel_sift_kept (c : Nat) (l : List (Nat × Query)) :
    (sift (cancelCollectF c) l).1 = l.filter (fun e => !(wantMatches c e.2)) := by
  induction l with
  | nil => simp [sift]
  | cons e rest ih =>
    obtain ⟨a, qa⟩ := e
    cases qa with
    | Want prov cid prio st =>
      by_cases hcid : cid = c
      · cases st with
        | New =>
          have hf : cancelCollectF c a (Query.Want prov cid prio QState.New)
              = Sum.inr none := by simp [cancelCollectF, hcid]
          rw [sift_cons_inr _ _ _ _ _ hf]
          simp [wantMatches, hcid, ih]
        | Sent s =>
          have hf : cancelCollectF c a (Query.Want prov cid prio (QState.Sent s))
              = Sum.inr (some s) := by simp [cancelCollectF, hcid]
          rw [sift_cons_inr _ _ _ _ _ hf]
          simp [wantMatches, hcid, ih]
      · have hf : cancelCollectF c a (Query.Want prov cid prio st)
            = Sum.inl (Query.Want prov cid prio st) := by simp [cancelCollectF, hcid]
        rw [sift_cons_inl _ _ _ _ _ hf]
        simp [wantMatches, hcid, ih]
    | FindProviders c2 pe pr st2 prio =>
      have hf : cancelCollectF c a (Query.FindProviders c2 pe pr st2 prio)
          = Sum.inl (Query.FindProviders c2 pe pr st2 prio) := by simp [cancelCollectF]
      rw [sift_cons_inl _ _ _ _ _ hf]
      simp [wantMatches, ih]
    | Cancel prov2 cid2 st2 =>
      have hf : cancelCollectF c a (Query.Cancel prov2 cid2 st2)
          = Sum.inl (Query.Cancel prov2 cid2 st2) := by simp [cancelCollectF]
      rw [sift_cons_inl _ _ _ _ _ hf]
      simp [wantMatches, ih]
    | Send r blk st2 =>
      have hf : cancelCollectF c a (Query.Send r blk st2)
          = Sum.inl (Query.Send r blk st2) := by simp [cancelCollectF]
      rw [sift_cons_inl _ _ _ _ _ hf]
      simp [wantMatches, ih]
    | SendHave r cid2 st2 =>
      have hf : cancelCollectF c a (Query.SendHave r cid2 st2)
          = Sum.inl (Query.SendHave r cid2 st2) := by simp [cancelCollectF]
      rw [sift_cons_inl _ _ _ _ _ hf]
      simp [wantMatches, ih]

/-- The `Sent` sets `cancel` collects are those of the matching sent `Want`s,
in registry order. -/
theorem cancel_collect_eq (c : Nat) (l : List (Nat × Query)) :
    (sift (cancelCollectF c) l).2.filterMap Prod.snd = sentWantSets c l := by
  induction l with
  | nil => simp [sift, sentWantSets]
  | cons e rest ih =>
    obtain ⟨a, qa⟩ := e
    cases qa with
    | Want prov cid prio st =>
      by_cases hcid : cid = c
      · cases st with
        | New =>
          have hf : cancelCollectF c a (Query.Want prov cid prio QState.New)
              = Sum.inr none := by simp [cancelCollectF, hcid]
          rw [sift_cons_inr _ _ _ _ _ hf]
          simp only [sentWantSets, List.filterMap_cons] at ih ⊢
          simpa [hcid] using ih
        | Sent s =>
          have hf : cancelCollectF c a (Query.Want prov cid prio (QState.Sent s))
              = Sum.inr (some s) := by simp [cancelCollectF, hcid]
          rw [sift_cons_inr _ _ _ _ _ hf]
          simp only [sentWantSets, List.filterMap_cons] at ih ⊢
          simpa [hcid] using ih
      · have hf : cancelCollectF c a (Query.Want prov cid prio st)
            = Sum.inl (Query.Want prov cid prio st) := by simp [cancelCollectF, hcid]
        rw [sift_cons_inl _ _ _ _ _ hf]
        simp only [sentWantSets, List.filterMap_cons] at ih ⊢
        cases st <;> simpa [hcid] using ih
    | FindProviders c2 pe pr st2 prio =>
      have hf : cancelCollectF c a (Query.FindProviders c2 pe pr st2 prio)
          = Sum.inl (Query.FindProviders c2 pe pr st2 prio) := by simp [cancelCollectF]
      rw [sift_cons_inl _ _ _ _ _ hf]
      simp only [sentWantSets, List.filterMap_cons] at ih ⊢
      simpa using ih
    | Cancel prov2 cid2 st2 =>
      have hf : cancelCollectF c a (Query.Cancel prov2 cid2 st2)
          = Sum.inl (Query.Cancel prov2 cid2 st2) := by simp [cancelCollectF]
      rw [sift_cons_inl _ _ _ _ _ hf]
      simp only [sentWantSets, List.filterMap_cons] at ih ⊢
      simpa using ih
    | Send r blk st2 =>
      have hf : cancelCollectF c a (Query.Send r blk st2)
          = Sum.inl (Query.Send r blk st2) := by simp [cancelCollectF]
      rw [sift_cons_inl _ _ _ _ _ hf]
      simp only [sentWantSets, List.filterMap_cons] at ih ⊢
      simpa using ih
    | SendHave r cid2 st2 =>
      have hf : cancelCollectF c a (Query.SendHave r cid2 st2)
          = Sum.inl (Query.SendHave r cid2 st2) := by simp [cancelCollectF]
      rw [sift_cons_inl _ _ _ _ _ hf]
      simp only [sentWantSets, List.filterMap_cons] at ih ⊢
      simpa using ih

/-- Claim C3: `cancel(c)` removes every `Want` whose CID equals `c`; it
returns the id of a newly created `Cancel` with providers `S` when some
removed `Want` was in state `Sent(S)` (the last such in registry order), and
`none` when no removed `Want` was in a `Sent` state — in particular when no
`Want` matched at all. -/
theorem claim_C3 (qm : QueryManager) (cid : Nat) :
    ((qm.cancel cid).1 = none ↔ sentWantSets cid qm.queries = []) ∧
    (sentWantSets cid qm.queries = [] →
      (qm.cancel cid).2.queries = qm.queries.filter (fun e => !(wantMatches cid e.2)) ∧
      (qm.cancel cid).2.nextId = qm.nextId) ∧
    (∀ S, (sentWantSets cid qm.queries).getLast? = some S →
      (qm.cancel cid).1 = some qm.nextId ∧
      (qm.cancel cid).2.queries
        = qm.queries.filter (fun e => !(wantMatches cid e.2))
            ++ [(qm.nextId, Query.Cancel S cid QState.New)] ∧
      (qm.cancel cid).2.nextId = (qm.nextId + 1) % U64) := by
  have hcol := cancel_collect_eq cid qm.queries
  have hkept := cancel_sift_kept cid qm.queries
  refine ⟨?_, ?_, ?_⟩
  · constructor
    · intro h
      rcases hlast : ((sift (cancelCollectF cid) qm.queries).2.filterMap Prod.snd).getLast?
        with _ | S
      · rw [hcol] at hlast
        exact List.getLast?_eq_none_iff.mp hlast
      · exfalso
        simp only [QueryManager.cancel, hlast] at h
        exact Option.some_ne_none _ h
    · intro h
      have hlast : ((sift (cancelCollectF cid) qm.queries).2.filterMap Prod.snd).getLast?
          = none := by
        rw [hcol, h]
        rfl
      simp [QueryManager.cancel, hlast]
  · intro h
    have hlast : ((sift (cancelCollectF cid) qm.queries).2.filterMap Prod.snd).getLast?
        = none := by
      rw [hcol, h]
      rfl
    simp [QueryManager.cancel, hlast, hkept]
  · intro S hS
    have hlast : ((sift (cancelCollectF cid) qm.queries).2.filterMap Prod.snd).getLast?
        = some S := by rw [hcol]; exact hS
    simp [QueryManager.cancel, hlast, hkept, QueryManager.newQuery]

/-- Witness for C3: a single sent `Want` for cid 3 produces a `Cancel` query
targeting its contacted peers; the returned id is the fresh one. -/
theorem claim_C3_witness :
    ((⟨[(0, Query.Want ∅ 3 1 (QState.Sent ({2} : Finset Nat)))], 1⟩ :
        QueryManager).cancel 3).1 = some 1 ∧
    ((⟨[(0, Query.Want ∅ 3 1 (QState.Sent ({2} : Finset Nat)))], 1⟩ :
        QueryManager).cancel 3).2.queries
      = [(1, Query.Cancel ({2} : Finset Nat) 3 QState.New)] := by
  have h := (claim_C3 ⟨[(0, Query.Want ∅ 3 1 (QState.Sent ({2} : Finset Nat)))], 1⟩ 3).2.2
    {2} (by decide)
  refine ⟨h.1, ?_⟩
  rw [h.2.1]
  decide

/-! ## Claim C10 -/

/-- When every entry before `(id, q0)` is unfinished and `q0` is finished, the
finished-query search finds exactly `(id, q0)` and removes it. -/
theorem extractFirstFinished_prefix (id : Nat) (q0 : Query)
    (l₁ l₂ : List (Nat × Query)) (h₁ : ∀ e ∈ l₁, e.2.isFinished = false)
    (h0 : q0.isFinished = true) :
    extractFirstFinished (l₁ ++ (id, q0) :: l₂) = some ((id, q0), l₁ ++ l₂) := by
  induction l₁ with
  | nil => simp [extractFirstFinished, h0]
  | cons e rest ih =>
    obtain ⟨a, qa⟩ := e
    have ha : qa.isFinished = false := h₁ (a, qa) (List.mem_cons_self _ _)
    have ihr := ih fun x hx => h₁ x (List.mem_cons_of_mem _ hx)
    simp [extractFirstFinished, ha, ihr]

/-- The singleton contacted set loses its only member on disconnect. -/
theorem erase_singleton_self (a : Nat) : ({a} : Finset Nat).erase a = ∅ := by
  ext x
  simp [Finset.mem_erase]

/-- Claim C10: a `Send` (or `SendHave`) query that reached `Sent({receiver})`
and is still registered has its `Sent` set emptied by
`disconnected(receiver)` (or `dial_failure(receiver)`, which is the same
function); being then finished, the next `poll_all` (when no earlier registry
entry is finished) removes it and emits the `Err(Timeout)` completion of the
corresponding kind — although the payload was already attached to an outbound
message. -/
theorem claim_C10 (receiver : Nat) :
    (∀ (qm : QueryManager) (id : Nat) (block : Block) (l₁ l₂ : List (Nat × Query)),
      qm.queries = l₁ ++ (id, Query.Send receiver block (QState.Sent {receiver})) :: l₂ →
      (∀ e ∈ l₁, (disconnectEntry receiver e).2.isFinished = false) →
      (qm.disconnected receiver).queries
        = l₁.map (disconnectEntry receiver)
            ++ (id, Query.Send receiver block (QState.Sent ∅))
              :: l₂.map (disconnectEntry receiver) ∧
      ((qm.disconnected receiver).pollAll).1 = some (id, QueryResultKind.Send) ∧
      ((qm.disconnected receiver).pollAll).2.queries
        = l₁.map (disconnectEntry receiver) ++ l₂.map (disconnectEntry receiver)) ∧
    (∀ (qm : QueryManager) (id cid : Nat) (l₁ l₂ : List (Nat × Query)),
      qm.queries = l₁ ++ (id, Query.SendHave receiver cid (QState.Sent {receiver})) :: l₂ →
      (∀ e ∈ l₁, (disconnectEntry receiver e).2.isFinished = false) →
      (qm.disconnected receiver).queries
        = l₁.map (disconnectEntry receiver)
            ++ (id, Query.SendHave receiver cid (QState.Sent ∅))
              :: l₂.map (disconnectEntry receiver) ∧
      ((qm.disconnected receiver).pollAll).1 = some (id, QueryResultKind.SendHave) ∧
      ((qm.disconnected receiver).pollAll).2.queries
        = l₁.map (disconnectEntry receiver) ++ l₂.map (disconnectEntry receiver)) ∧
    (∀ qm : QueryManager, qm.dialFailure receiver = qm.disconnected receiver) := by
  have hmid : ∀ (id : Nat) (block : Block),
      disconnectEntry receiver (id, Query.Send receiver block (QState.Sent {receiver}))
        = (id, Query.Send receiver block (QState.Sent ∅)) := by
    intro id block
    simp [disconnectEntry, Query.containsProvider, Query.disconnectQ, QState.eraseSent,
      erase_singleton_self]
  have hmid' : ∀ (id cid : Nat),
      disconnectEntry receiver (id, Query.SendHave receiver cid (QState.Sent {receiver}))
        = (id, Query.SendHave receiver cid (QState.Sent ∅)) := by
    intro id cid
    simp [disconnectEntry, Query.containsProvider, Query.disconnectQ, QState.eraseSent,
      erase_singleton_self]
  refine ⟨?_, ?_, fun qm => rfl⟩
  · intro qm id block l₁ l₂ hsplit hbefore
    have hq : (qm.disconnected receiver).queries
        = l₁.map (disconnectEntry receiver)
            ++ (id, Query.Send receiver block (QState.Sent ∅))
              :: l₂.map (disconnectEntry receiver) := by
      simp only [QueryManager.disconnected, hsplit, List.map_append, List.map_cons,
        hmid id block]
    have hext := extractFirstFinished_prefix id (Query.Send receiver block (QState.Sent ∅))
      (l₁.map (disconnectEntry receiver)) (l₂.map (disconnectEntry receiver))
      (by
        intro e he
        rcases List.mem_map.mp he with ⟨x, hx, rfl⟩
        exact hbefore x hx)
      (by simp [Query.isFinished, QState.sentIsEmpty])
    refine ⟨hq, ?_, ?_⟩
    · simp [QueryManager.pollAll, hq, hext, Query.kind]
    · simp [QueryManager.pollAll, hq, hext]
  · intro qm id cid l₁ l₂ hsplit hbefore
    have hq : (qm.disconnected receiver).queries
        = l₁.map (disconnectEntry receiver)
            ++ (id, Query.SendHave receiver cid (QState.Sent ∅))
              :: l₂.map (disconnectEntry receiver) := by
      simp only [QueryManager.disconnected, hsplit, List.map_append, List.map_cons,
        hmid' id cid]
    have hext := extractFirstFinished_prefix id
      (Query.SendHave receiver cid (QState.Sent ∅))
      (l₁.map (disconnectEntry receiver)) (l₂.map (disconnectEntry receiver))
      (by
        intro e he
        rcases List.mem_map.mp he with ⟨x, hx, rfl⟩
        exact hbefore x hx)
      (by simp [Query.isFinished, QState.sentIsEmpty])
    refine ⟨hq, ?_, ?_⟩
    · simp [QueryManager.pollAll, hq, hext, Query.kind]
    · simp [QueryManager.pollAll, hq, hext]

/-- Witness for C10: a lone sent `Send` query times out after the receiver
disconnects. -/
theorem claim_C10_witness :
    ((⟨[(0, Query.Send 4 ⟨1, 7⟩ (QState.Sent ({4} : Finset Nat)))], 1⟩ :
        QueryManager).disconnected 4).pollAll.1 = some (0, QueryResultKind.Send) ∧
    ((⟨[(0, Query.Send 4 ⟨1, 7⟩ (QState.Sent ({4} : Finset Nat)))], 1⟩ :
        QueryManager).disconnected 4).pollAll.2.queries = [] := by
  have h := (claim_C10 4).1 ⟨[(0, Query.Send 4 ⟨1, 7⟩ (QState.Sent {4}))], 1⟩ 0 ⟨1, 7⟩
    [] [] rfl (by intro e he; simp at he)
  exact ⟨h.2.1, by simpa using h.2.2⟩

/-! ## Claim C7 -/

/-- Counterexample to claim C7: a `Send` query is created, attached to an
outbound message by one `poll_peer` (which returns the message and moves it to
`Sent({receiver})`), and silently dropped by the next `poll_peer` — the final
registry is empty, no completion was ever emitted for it, while the claim
demands exactly one completion event for such a query. -/
theorem counterexample_C7 :
    (runOps QueryManager.init
        [QMOp.send 3 1 7, QMOp.pollPeer 3, QMOp.pollPeer 3]).1.queries = [] ∧
    (runOps QueryManager.init
        [QMOp.send 3 1 7, QMOp.pollPeer 3, QMOp.pollPeer 3]).2 = [] ∧
    ((QueryManager.init.send 3 1 7).2.pollPeer 3).1.isSome = true := by
  refine ⟨by decide, by decide, by decide⟩

/-- The finished-query search removes exactly one entry: the registry is a
permutation of that entry and the remainder. -/
theorem extractFirstFinished_perm (l : List (Nat × Query)) (e : Nat × Query)
    (rest : List (Nat × Query)) (h : extractFirstFinished l = some (e, rest)) :
    l.Perm (e :: rest) := by
  induction l generalizing rest with
  | nil => simp [extractFirstFinished] at h
  | cons x l' ih =>
    obtain ⟨a, qa⟩ := x
    by_cases hf : qa.isFinished
    · simp only [extractFirstFinished, hf, if_pos, Option.some.injEq, Prod.mk.injEq] at h
      obtain ⟨h1, h2⟩ := h
      rw [← h1, ← h2]
    · simp only [extractFirstFinished, hf, if_neg, if_false] at h
      rcases hrest : extractFirstFinished l' with _ | res
      · rw [hrest] at h; simp at h
      · rw [hrest] at h
        obtain ⟨e0, rest0⟩ := res
        simp only [Option.some.injEq, Prod.mk.injEq] at h
        obtain ⟨h1, h2⟩ := h
        exact ((ih _ hrest).cons _).trans (List.Perm.swap _ _ _)

/-- Disconnecting a peer does not change the registry's ids. -/
theorem qmKeys_disconnected (p : Nat) (qm : QueryManager) :
    qmKeys (qm.disconnected p) = qmKeys qm := by
  simp only [qmKeys, QueryManager.disconnected, List.map_map]
  apply List.map_congr_left
  intro e _
  simp only [Function.comp_apply, disconnectEntry]
  by_cases h : e.2.containsProvider p <;> simp [h]

/-- The registry left by `poll_peer`. -/
theorem pollPeer_queries (p : Nat) (qm : QueryManager) :
    ((qm.pollPeer p).2).queries
      = if qm.queries.isEmpty = true then qm.queries
        else (sift (pollPeerF p) qm.queries).1 := by
  by_cases h : qm.queries.isEmpty = true
  · simp [QueryManager.pollPeer, h]
  · simp only [QueryManager.pollPeer, h, if_false, if_neg]
    by_cases h2 : 0 < pollPeerCount p qm.queries ∧ (pollPeerMsg p qm.queries).isEmpty = false
    · simp [h2]
    · simp [h2]

/-- The allocation counter is untouched by `poll_peer`. -/
theorem pollPeer_nextId (p : Nat) (qm : QueryManager) :
    ((qm.pollPeer p).2).nextId = qm.nextId := by
  by_cases h : qm.queries.isEmpty = true
  · simp [QueryManager.pollPeer, h]
  · simp only [QueryManager.pollPeer, h, if_false, if_neg]
    by_cases h2 : 0 < pollPeerCount p qm.queries ∧ (pollPeerMsg p qm.queries).isEmpty = false
    · simp [h2]
    · simp [h2]

/-- Ids of the fresh cancel entries lie in the allocated range. -/
theorem cancelEntries_keys_bounds (c : Nat) (cs : List (Finset Nat)) :
    ∀ n, ∀ i ∈ (cancelEntries c n cs).map Prod.fst, n ≤ i ∧ i < n + cs.length := by
  induction cs with
  | nil => intro n i hi; simp [cancelEntries] at hi
  | cons s rest ih =>
    intro n i hi
    simp only [cancelEntries, List.map_cons, List.mem_cons] at hi
    rcases hi with hi | hi
    · subst hi
      simp
    · have := ih (n + 1) i hi
      constructor
      · omega
      · simp only [List.length_cons]
        omega

/-- The fresh cancel entries have distinct ids. -/
theorem cancelEntries_keys_nodup (c : Nat) (cs : List (Finset Nat)) :
    ∀ n, ((cancelEntries c n cs).map Prod.fst).Nodup := by
  induction cs with
  | nil => intro n; simp [cancelEntries]
  | cons s rest ih =>
    intro n
    simp only [cancelEntries, List.map_cons, List.nodup_cons]
    refine ⟨?_, ih (n + 1)⟩
    intro hmem
    have := (cancelEntries_keys_bounds c rest (n + 1) n hmem).1
    omega

/-- Allocating one query preserves the registry invariant and advances the
counter by one (below the wrap bound). -/
theorem newQuery_spec (qm : QueryManager) (q : Query) (hinv : QMInv qm)
    (hw : qm.nextId + 1 < U64) :
    QMInv (qm.newQuery q).2 ∧ (qm.newQuery q).2.nextId = qm.nextId + 1 ∧
    (∀ i ∈ qmKeys (qm.newQuery q).2, i ∈ qmKeys qm ∨ qm.nextId ≤ i) := by
  have hmod : (qm.nextId + 1) % U64 = qm.nextId + 1 := Nat.mod_eq_of_lt hw
  have hkeys : qmKeys (qm.newQuery q).2 = qmKeys qm ++ [qm.nextId] := by
    simp [qmKeys, QueryManager.newQuery]
  refine ⟨⟨?_, ?_⟩, ?_, ?_⟩
  · rw [hkeys]
    refine List.Nodup.append hinv.1 (List.nodup_singleton _) ?_
    intro i hi hj
    simp only [List.mem_singleton] at hj
    subst hj
    exact absurd (hinv.2 _ hi) (lt_irrefl _)
  · intro id hid
    rw [hkeys] at hid
    simp only [QueryManager.newQuery, hmod]
    rcases List.mem_append.mp hid with h | h
    · exact lt_trans (hinv.2 id h) (Nat.lt_succ_self _)
    · simp only [List.mem_singleton] at h
      subst h
      exact Nat.lt_succ_self _
  · simp [QueryManager.newQuery, hmod]
  · intro i hi
    rw [hkeys] at hi
    rcases List.mem_append.mp hi with h | h
    · exact Or.inl h
    · simp only [List.mem_singleton] at h
      subst h
      exact Or.inr (le_refl _)

/-- Per-operation accounting: every operation preserves the registry
invariant, advances the counter by its allocation count (below the wrap
bound), and completes distinct ids that were in the registry before the call
and are gone after it; ids in the registry afterwards are old ones or freshly
allocated. -/
theorem stepOp_spec (qm : QueryManager) (op : QMOp) (hinv : QMInv qm)
    (hw : qm.nextId + stepAllocs qm op < U64) :
    QMInv (stepOp qm op).1 ∧
    (stepOp qm op).1.nextId = qm.nextId + stepAllocs qm op ∧
    (stepOp qm op).2.Nodup ∧
    (∀ i ∈ (stepOp qm op).2, i ∈ qmKeys qm) ∧
    (∀ i ∈ (stepOp qm op).2, i ∉ qmKeys (stepOp qm op).1) ∧
    (∀ i ∈ qmKeys (stepOp qm op).1, i ∈ qmKeys qm ∨ qm.nextId ≤ i) := by
  cases op with
  | want cid priority providers =>
    simp only [stepAllocs] at hw ⊢
    have h := newQuery_spec qm (Query.Want providers cid priority QState.New) hinv hw
    exact ⟨h.1, h.2.1, List.nodup_nil, by simp [stepOp], by simp [stepOp], h.2.2⟩
  | send r c d =>
    simp only [stepAllocs] at hw ⊢
    have h := newQuery_spec qm (Query.Send r ⟨c, d⟩ QState.New) hinv hw
    exact ⟨h.1, h.2.1, List.nodup_nil, by simp [stepOp], by simp [stepOp], h.2.2⟩
  | sendHave r c =>
    simp only [stepAllocs] at hw ⊢
    have h := newQuery_spec qm (Query.SendHave r c QState.New) hinv hw
    exact ⟨h.1, h.2.1, List.nodup_nil, by simp [stepOp], by simp [stepOp], h.2.2⟩
  | findProviders c p peers =>
    simp only [stepAllocs] at hw ⊢
    have h := newQuery_spec qm (Query.FindProviders c peers ∅ QState.New p) hinv hw
    exact ⟨h.1, h.2.1, List.nodup_nil, by simp [stepOp], by simp [stepOp], h.2.2⟩
  | cancel c =>
    have hksub := sift_kept_keys_sublist (cancelCollectF c) qm.queries
    have hinv1 : QMInv (⟨(sift (cancelCollectF c) qm.queries).1, qm.nextId⟩ : QueryManager) := by
      refine ⟨hksub.nodup hinv.1, ?_⟩
      intro i hi
      exact hinv.2 i (hksub.subset hi)
    rcases hlast : ((sift (cancelCollectF c) qm.queries).2.filterMap Prod.snd).getLast?
      with _ | S
    · have hstep : stepOp qm (QMOp.cancel c)
          = (⟨(sift (cancelCollectF c) qm.queries).1, qm.nextId⟩, []) := by
        simp [stepOp, QueryManager.cancel, hlast]
      have hall : stepAllocs qm (QMOp.cancel c) = 0 := by
        simp [stepAllocs, hlast]
      rw [hstep, hall]
      refine ⟨hinv1, by simp, List.nodup_nil, by simp, by simp, ?_⟩
      intro i hi
      exact Or.inl (hksub.subset hi)
    · have hstep : stepOp qm (QMOp.cancel c)
          = (((⟨(sift (cancelCollectF c) qm.queries).1, qm.nextId⟩ :
              QueryManager).newQuery (Query.Cancel S c QState.New)).2, []) := by
        simp [stepOp, QueryManager.cancel, hlast]
      have hall : stepAllocs qm (QMOp.cancel c) = 1 := by
        simp [stepAllocs, hlast]
      rw [hall] at hw
      have h := newQuery_spec ⟨(sift (cancelCollectF c) qm.queries).1, qm.nextId⟩
        (Query.Cancel S c QState.New) hinv1 hw
      rw [hstep, hall]
      refine ⟨h.1, h.2.1, List.nodup_nil, by simp, by simp, ?_⟩
      intro i hi
      rcases h.2.2 i hi with hk | hk
      · exact Or.inl (hksub.subset hk)
      · exact Or.inr hk
  | processBlock s b =>
    have hksub := sift_kept_keys_sublist (processBlockF b.cid) qm.queries
    have hrsub := sift_removed_keys_sublist (processBlockF b.cid) qm.queries
    have hall : stepAllocs qm (QMOp.processBlock s b)
        = (processBlockCancels s (sift (processBlockF b.cid) qm.queries).2).length := rfl
    rw [hall] at hw
    have hfold := foldl_newQuery_spec b.cid
      (processBlockCancels s (sift (processBlockF b.cid) qm.queries).2)
      ⟨(sift (processBlockF b.cid) qm.queries).1, qm.nextId⟩ hw
    have hq2 : (qm.processBlock s b).2.queries
        = (sift (processBlockF b.cid) qm.queries).1
          ++ cancelEntries b.cid qm.nextId
              (processBlockCancels s (sift (processBlockF b.cid) qm.queries).2) := by
      simp only [QueryManager.processBlock]
      exact hfold.1
    have hq2n : (qm.processBlock s b).2.nextId
        = qm.nextId
          + (processBlockCancels s (sift (processBlockF b.cid) qm.queries).2).length := by
      simp only [QueryManager.processBlock]
      exact hfold.2
    have hkeys : qmKeys (qm.processBlock s b).2
        = (sift (processBlockF b.cid) qm.queries).1.map Prod.fst
          ++ (cancelEntries b.cid qm.nextId
              (processBlockCancels s (sift (processBlockF b.cid) qm.queries).2)).map
                Prod.fst := by
      simp [qmKeys, hq2]
    have hcomp : (stepOp qm (QMOp.processBlock s b)).2
        = (sift (processBlockF b.cid) qm.queries).2.map Prod.fst := rfl
    have hstep1 : (stepOp qm (QMOp.processBlock s b)).1 = (qm.processBlock s b).2 := rfl
    refine ⟨⟨?_, ?_⟩, ?_, ?_, ?_, ?_, ?_⟩
    · rw [hstep1, hkeys]
      refine List.Nodup.append (hksub.nodup hinv.1) (cancelEntries_keys_nodup _ _ _) ?_
      intro i hik hic
      have h1 := hinv.2 i (hksub.subset hik)
      have h2 := (cancelEntries_keys_bounds _ _ _ i hic).1
      omega
    · rw [hstep1]
      intro i hi
      rw [hkeys] at hi
      rw [hq2n]
      rcases List.mem_append.mp hi with h | h
      · have := hinv.2 i (hksub.subset h)
        omega
      · exact (cancelEntries_keys_bounds _ _ _ i h).2
    · rw [hstep1, hq2n, hall]
    · rw [hcomp]
      exact hrsub.nodup hinv.1
    · rw [hcomp]
      intro i hi
      exact hrsub.subset hi
    · rw [hcomp, hstep1]
      intro i hi
      rw [hkeys]
      intro hmem
      rcases List.mem_append.mp hmem with h | h
      · exact sift_removed_not_kept _ hinv.1 hi h
      · have h1 := hinv.2 i (hrsub.subset hi)
        have h2 := (cancelEntries_keys_bounds _ _ _ i h).1
        omega
    · rw [hstep1]
      intro i hi
      rw [hkeys] at hi
      rcases List.mem_append.mp hi with h | h
      · exact Or.inl (hksub.subset h)
      · exact Or.inr (cancelEntries_keys_bounds _ _ _ i h).1
  | processBlockPresence p bp =>
    have hksub := sift_kept_keys_sublist (presenceF p bp) qm.queries
    have hrsub := sift_removed_keys_sublist (presenceF p bp) qm.queries
    have hstep : stepOp qm (QMOp.processBlockPresence p bp)
        = (⟨(sift (presenceF p bp) qm.queries).1, qm.nextId⟩,
            ((sift (presenceF p bp) qm.queries).2.map Prod.fst)) := by
      simp [stepOp, QueryManager.processBlockPresence, List.map_map]
    rw [hstep]
    have hall : stepAllocs qm (QMOp.processBlockPresence p bp) = 0 := rfl
    rw [hall]
    refine ⟨⟨hksub.nodup hinv.1, ?_⟩, by simp, hrsub.nodup hinv.1, ?_, ?_, ?_⟩
    · intro i hi
      exact hinv.2 i (hksub.subset hi)
    · intro i hi
      exact hrsub.subset hi
    · intro i hi
      exact sift_removed_not_kept _ hinv.1 hi
    · intro i hi
      exact Or.inl (hksub.subset hi)
  | disconnected p =>
    have hk : qmKeys (stepOp qm (QMOp.disconnected p)).1 = qmKeys qm :=
      qmKeys_disconnected p qm
    refine ⟨⟨hk ▸ hinv.1, ?_⟩, by simp [stepOp, stepAllocs, QueryManager.disconnected],
      List.nodup_nil, by simp [stepOp], by simp [stepOp], ?_⟩
    · intro i hi
      rw [hk] at hi
      exact hinv.2 i hi
    · intro i hi
      rw [hk] at hi
      exact Or.inl hi
  | dialFailure p =>
    have hk : qmKeys (stepOp qm (QMOp.dialFailure p)).1 = qmKeys qm :=
      qmKeys_disconnected p qm
    refine ⟨⟨hk ▸ hinv.1, ?_⟩,
      by simp [stepOp, stepAllocs, QueryManager.dialFailure, QueryManager.disconnected],
      List.nodup_nil, by simp [stepOp], by simp [stepOp], ?_⟩
    · intro i hi
      rw [hk] at hi
      exact hinv.2 i hi
    · intro i hi
      rw [hk] at hi
      exact Or.inl hi
  | pollAll =>
    rcases hext : extractFirstFinished qm.queries with _ | r
    · have hstep : stepOp qm QMOp.pollAll = (qm, []) := by
        simp [stepOp, QueryManager.pollAll, hext]
      rw [hstep]
      exact ⟨hinv, by simp [stepAllocs], List.nodup_nil, by simp, by simp,
        fun i hi => Or.inl hi⟩
    · obtain ⟨⟨id, q⟩, rest⟩ := r
      have hperm := extractFirstFinished_perm qm.queries (id, q) rest hext
      have hpk : (qmKeys qm).Perm (id :: rest.map Prod.fst) := by
        simpa [qmKeys] using hperm.map Prod.fst
      have hnd2 : (id :: rest.map Prod.fst).Nodup := hpk.nodup hinv.1
      have hstep : stepOp qm QMOp.pollAll = (⟨rest, qm.nextId⟩, [id]) := by
        simp [stepOp, QueryManager.pollAll, hext]
      rw [hstep]
      refine ⟨⟨(List.nodup_cons.mp hnd2).2, ?_⟩, by simp [stepAllocs], ?_, ?_, ?_, ?_⟩
      · intro i hi
        exact hinv.2 i (hpk.mem_iff.mpr (List.mem_cons_of_mem _ hi))
      · exact List.nodup_singleton _
      · intro i hi
        simp only [List.mem_singleton] at hi
        subst hi
        exact hpk.mem_iff.mpr (List.mem_cons_self _ _)
      · intro i hi
        simp only [List.mem_singleton] at hi
        subst hi
        exact (List.nodup_cons.mp hnd2).1
      · intro i hi
        exact Or.inl (hpk.mem_iff.mpr (List.mem_cons_of_mem _ hi))
  | pollPeer p =>
    have hq := pollPeer_queries p qm
    have hn := pollPeer_nextId p qm
    have hcomp : (stepOp qm (QMOp.pollPeer p)).2 = [] := rfl
    have hstep1 : (stepOp qm (QMOp.pollPeer p)).1 = (qm.pollPeer p).2 := rfl
    have hsub : (qmKeys (qm.pollPeer p).2).Sublist (qmKeys qm) := by
      rw [qmKeys, hq]
      by_cases h : qm.queries.isEmpty = true
      · simp [h, qmKeys]
      · simp only [h, if_false, if_neg]
        exact sift_kept_keys_sublist _ _
    rw [hstep1, hcomp]
    refine ⟨⟨hsub.nodup hinv.1, ?_⟩, ?_, List.nodup_nil, by simp, by simp, ?_⟩
    · intro i hi
      rw [hn]
      exact hinv.2 i (hsub.subset hi)
    · rw [hn]
      simp [stepAllocs]
    · intro i hi
      exact Or.inl (hsub.subset hi)

/-- Trace accounting: over any operation sequence that does not exhaust the
id space, the completed ids are pairwise distinct, each being either an id
registered at the start or one allocated during the run. -/
theorem runOps_spec (ops : List QMOp) : ∀ qm : QueryManager, QMInv qm →
    qm.nextId + runAllocs qm ops < U64 →
    QMInv (runOps qm ops).1 ∧
    qm.nextId ≤ (runOps qm ops).1.nextId ∧
    (runOps qm ops).2.Nodup ∧
    (∀ i ∈ (runOps qm ops).2, i ∈ qmKeys qm ∨ qm.nextId ≤ i) := by
  induction ops with
  | nil =>
    intro qm hinv hw
    exact ⟨hinv, le_refl _, List.nodup_nil, by simp [runOps]⟩
  | cons op ops ih =>
    intro qm hinv hw
    have hwsplit : runAllocs qm (op :: ops)
        = stepAllocs qm op + runAllocs (stepOp qm op).1 ops := rfl
    rw [hwsplit] at hw
    have hwstep : qm.nextId + stepAllocs qm op < U64 := by omega
    obtain ⟨hinv1, hnext1, hnod1, hsub1, hgone1, hkeys1⟩ := stepOp_spec qm op hinv hwstep
    have hw2 : (stepOp qm op).1.nextId + runAllocs (stepOp qm op).1 ops < U64 := by
      rw [hnext1]
      omega
    obtain ⟨hinv2, hnext2, hnod2, hsub2⟩ := ih (stepOp qm op).1 hinv1 hw2
    have hrunq : (runOps qm (op :: ops)).1 = (runOps (stepOp qm op).1 ops).1 := rfl
    have hrunc : (runOps qm (op :: ops)).2
        = (stepOp qm op).2 ++ (runOps (stepOp qm op).1 ops).2 := rfl
    refine ⟨hrunq ▸ hinv2, ?_, ?_, ?_⟩
    · rw [hrunq]
      calc qm.nextId ≤ (stepOp qm op).1.nextId := by rw [hnext1]; omega
        _ ≤ (runOps (stepOp qm op).1 ops).1.nextId := hnext2
    · rw [hrunc]
      refine List.Nodup.append hnod1 hnod2 ?_
      intro i hi1 hi2
      have hlt : i < qm.nextId := hinv.2 i (hsub1 i hi1)
      rcases hsub2 i hi2 with h | h
      · exact hgone1 i hi1 h
      · rw [hnext1] at h
        omega
    · rw [hrunc]
      intro i hi
      rcases List.mem_append.mp hi with h | h
      · exact Or.inl (hsub1 i h)
      · rcases hsub2 i h with h2 | h2
        · rcases hkeys1 i h2 with h3 | h3
          · exact Or.inl h3
          · exact Or.inr h3
        · rw [hnext1] at h2
          exact Or.inr (by omega)

/-- Claim C7 as amended: across any sequence of query-manager operations that
allocates fewer ids than the wrap-around bound, no query id is completed
(returned to the caller for an `Ok` event, or removed by `poll_all` with its
`Err(Timeout)` event) more than once, and the registry invariant is
preserved. The original claim's stronger clause — that every removal emits
exactly one completion — fails: `poll_peer` drops already-sent `Send` and
`SendHave` queries, and `cancel` drops `Want` queries, without any completion
event. -/
theorem claim_C7_amended (qm : QueryManager) (ops : List QMOp) (hinv : QMInv qm)
    (hw : qm.nextId + runAllocs qm ops < U64) :
    (runOps qm ops).2.Nodup ∧ QMInv (runOps qm ops).1 :=
  ⟨(runOps_spec ops qm hinv hw).2.2.1, (runOps_spec ops qm hinv hw).1⟩

/-- Witness for the amended C7: a run with a want, its dispatch, a block
arrival completing it (id 0), and a drained `poll_all`; the completion trace
is duplicate-free. -/
theorem claim_C7_amended_witness :
    (runOps QueryManager.init
        [QMOp.want 1 5 {2}, QMOp.pollPeer 2, QMOp.processBlock 2 ⟨1, 9⟩,
          QMOp.pollAll]).2.Nodup ∧
    QMInv (runOps QueryManager.init
        [QMOp.want 1 5 {2}, QMOp.pollPeer 2, QMOp.processBlock 2 ⟨1, 9⟩,
          QMOp.pollAll]).1 :=
  claim_C7_amended QueryManager.init
    [QMOp.want 1 5 {2}, QMOp.pollPeer 2, QMOp.processBlock 2 ⟨1, 9⟩, QMOp.pollAll]
    ⟨List.nodup_nil, by simp [qmKeys, QueryManager.init]⟩ (by decide)
